import Mathlib

/-!
Verification of the line-classification and detail-association core of
`transaction_parser.py` (iko_transaction_analyzer).

The Python regular expressions are embedded as executable matchers over
`List Char` that reproduce the `re` engine's behaviour on the constructs the
patterns use: anchored matching (`re.match`), greedy repetition with
backtracking, lazy `.+?` groups, and first-match-wins alternation.  Amounts are
modelled as exact rationals (`ℚ`); the Python reference stores binary floats,
a fidelity gap the spec itself flags, but every numeric value appearing in the
claims is exactly representable, so the arithmetic content is unaffected.
`\s` is modelled as the ASCII whitespace characters (the inputs in question
contain only ordinary spaces), and `str.lower()` as a character map covering
ASCII plus the Polish letters occurring in the parser's pattern literals.
-/

namespace IkoTx

/-- Whitespace test modelling Python's `\s` (ASCII part) and `str.strip()`. -/
def isWsC (c : Char) : Bool :=
  c = ' ' || c = '\t' || c = '\n' || c = '\r' || c = '\x0b' || c = '\x0c'

/-- Decimal digit test, modelling `\d` (ASCII). -/
def isDigitC (c : Char) : Bool :=
  '0' ≤ c && c ≤ '9'

/-- Character class `[A-Z0-9]` used by the transaction-id group. -/
def isIdC (c : Char) : Bool :=
  ('A' ≤ c && c ≤ 'Z') || isDigitC c

/-- Character class `[A-Z]` used by the currency-code groups. -/
def isUpperAZ (c : Char) : Bool :=
  'A' ≤ c && c ≤ 'Z'

/-- Python `str.lower()`, modelled as a character map covering ASCII letters
and the Polish uppercase letters that occur in this parser's literals. -/
def pyLower (c : Char) : Char :=
  if 'A' ≤ c && c ≤ 'Z' then Char.ofNat (c.toNat + 32)
  else if c = 'Ą' then 'ą'
  else if c = 'Ć' then 'ć'
  else if c = 'Ę' then 'ę'
  else if c = 'Ł' then 'ł'
  else if c = 'Ń' then 'ń'
  else if c = 'Ó' then 'ó'
  else if c = 'Ś' then 'ś'
  else if c = 'Ź' then 'ź'
  else if c = 'Ż' then 'ż'
  else c

/-- Does `n` occur at the start of `hay`?  (Support for substring search.) -/
def leadsWith : List Char → List Char → Bool
  | [], _ => true
  | _ :: _, [] => false
  | a :: as, b :: bs => a = b && leadsWith as bs

/-- Substring occurrence test, modelling Python's `needle in hay`. -/
def listContains : List Char → List Char → Bool
  | [], n => leadsWith n []
  | hay@(_ :: t), n => leadsWith n hay || listContains t n

/-- Python `str.strip()` on a character list. -/
def pyStrip (l : List Char) : List Char :=
  ((l.dropWhile isWsC).reverse.dropWhile isWsC).reverse

/-! ### AmountNormalizer: `clean_amount` and the float model -/

/-- Numeric value of a digit string. -/
def digitsVal (l : List Char) : Nat :=
  l.foldl (fun a c => a * 10 + (c.toNat - '0'.toNat)) 0

/-- Exponent suffix of a Python float literal (`e`/`E`, optional sign, digits):
returns (is-negative, exponent); `(false, 0)` for an empty remainder and
`none` on trailing garbage. -/
def parseExpTail : List Char → Option (Bool × Nat)
  | [] => some (false, 0)
  | c :: r =>
    if c = 'e' || c = 'E' then
      match r with
      | d :: r2 =>
        if d = '-' then
          if !r2.isEmpty && r2.all isDigitC then some (true, digitsVal r2) else none
        else if d = '+' then
          if !r2.isEmpty && r2.all isDigitC then some (false, digitsVal r2) else none
        else
          if (d :: r2).all isDigitC then some (false, digitsVal (d :: r2)) else none
      | [] => none
    else none

/-- The rational value of integer digits, fractional digits and a decimal
exponent, built with `mkRat` so kernel reduction stays cheap. -/
def qVal (ip fp : List Char) (ex : Bool × Nat) : ℚ :=
  if ex.1 then mkRat (digitsVal (ip ++ fp)) (10 ^ fp.length * 10 ^ ex.2)
  else mkRat (digitsVal (ip ++ fp) * 10 ^ ex.2) (10 ^ fp.length)

/-- Unsigned part of a Python float literal: digits with an optional decimal
point (at least one digit overall) and an optional exponent. -/
def parseUnsigned (l : List Char) : Option ℚ :=
  let ip := l.takeWhile isDigitC
  let r1 := l.dropWhile isDigitC
  match r1 with
  | c :: r2 =>
    if c = '.' then
      let fp := r2.takeWhile isDigitC
      let r3 := r2.dropWhile isDigitC
      if ip.isEmpty && fp.isEmpty then none
      else (parseExpTail r3).map (qVal ip fp)
    else
      if ip.isEmpty then none else (parseExpTail r1).map (qVal ip [])
  | [] =>
    if ip.isEmpty then none else some (qVal ip [] (false, 0))

/-- Model of Python `float(str)` on sign/digits/point/exponent inputs
(`inf`, `nan` and digit-group underscores are outside the shapes this parser
ever produces and are not modelled). -/
def parsePyFloat (l : List Char) : Option ℚ :=
  match pyStrip l with
  | [] => none
  | c :: r =>
    if c = '-' then (parseUnsigned r).map (fun q => -q)
    else if c = '+' then parseUnsigned r
    else parseUnsigned (c :: r)

/-- The character cleanup performed by `clean_amount`: drop spaces, turn the
decimal comma into a point. -/
def pyCleanAmount (s : String) : List Char :=
  (s.data.filter (fun c => c ≠ ' ')).map (fun c => if c = ',' then '.' else c)

/-- `TransactionParser.clean_amount`: Polish-format amount to a number, with
`0` substituted for empty or unparseable input. -/
def clean_amount (s : String) : ℚ :=
  if s.data.isEmpty then 0
  else
    match parsePyFloat (pyCleanAmount s) with
    | some q => q
    | none => 0

/-! ### Primitive matcher combinators -/

/-- Exactly `n` characters satisfying `p` (e.g. `\d{n}`). -/
def takeExact (p : Char → Bool) : Nat → List Char → Option (List Char × List Char)
  | 0, s => some ([], s)
  | _ + 1, [] => none
  | n + 1, c :: rest =>
    if p c then (takeExact p n rest).map (fun q => (c :: q.1, q.2)) else none

/-- Greedy one-or-more repetition of a character class (e.g. `\d+`). -/
def takeWhile1 (p : Char → Bool) (s : List Char) : Option (List Char × List Char) :=
  match s with
  | [] => none
  | c :: _ => if p c then some (s.takeWhile p, s.dropWhile p) else none

/-- Literal-prefix matcher (worker). -/
def litGo : List Char → List Char → Option (List Char)
  | [], s => some s
  | _ :: _, [] => none
  | a :: as, b :: bs => if b = a then litGo as bs else none

/-- Literal-prefix matcher for a pattern fragment. -/
def litP (lit : String) (s : List Char) : Option (List Char) :=
  litGo lit.data s

/-- Greedy `\s+`.  Every use in the embedded patterns is followed by a token
that cannot start with whitespace, except the lazy `.+?` groups, which get
their own backtracking search (`wsLazy`); hence greedy here is exact. -/
def wsPlus (s : List Char) : Option (List Char) :=
  match s with
  | [] => none
  | c :: _ => if isWsC c then some (s.dropWhile isWsC) else none

/-- The date group `(\d{2}\.\d{2}\.\d{4})`. -/
def matchDateL (s : List Char) : Option (List Char × List Char) :=
  match takeExact isDigitC 2 s with
  | none => none
  | some d1 =>
    match d1.2 with
    | c1 :: r2 =>
      if c1 = '.' then
        match takeExact isDigitC 2 r2 with
        | none => none
        | some d2 =>
          match d2.2 with
          | c2 :: r4 =>
            if c2 = '.' then
              match takeExact isDigitC 4 r4 with
              | none => none
              | some d3 => some (d1.1 ++ '.' :: d2.1 ++ '.' :: d3.1, d3.2)
            else none
          | [] => none
      else none
    | [] => none

/-- First `some` produced by `f` along a list; models the engine trying
backtracking alternatives in priority order. -/
def firstSome (f : α → Option β) : List α → Option β
  | [] => none
  | a :: l =>
    match f a with
    | some b => some b
    | none => firstSome f l

/-- `Option` to singleton-or-empty list. -/
def optToList : Option α → List α
  | some a => [a]
  | none => []

/-- `List.filterMap` spelt out, to keep its equations under our control. -/
def collectSome (f : α → Option β) : List α → List β
  | [] => []
  | a :: l =>
    match f a with
    | some b => b :: collectSome f l
    | none => collectSome f l

/-- `List.flatMap` spelt out. -/
def concatMap (f : α → List β) : List α → List β
  | [] => []
  | a :: l => f a ++ concatMap f l

/-! ### The locale-number group `-?\d{1,3}(?:\s?\d{3})*,\d{2}` -/

/-- One repetition of `(?:\s?\d{3})`.  The optional whitespace and the digit
block have disjoint first characters, so the repetition is deterministic. -/
def rep3 (s : List Char) : Option (List Char × List Char) :=
  match s with
  | [] => none
  | c :: rest =>
    if isWsC c then
      match takeExact isDigitC 3 rest with
      | some q => some (c :: q.1, q.2)
      | none => none
    else takeExact isDigitC 3 s

/-- All parses of `(?:\s?\d{3})*` in the engine's priority order (longest
first), fuelled by the input length. -/
def starCands : Nat → List Char → List (List Char × List Char)
  | 0, s => [([], s)]
  | fuel + 1, s =>
    match rep3 s with
    | some q => ((starCands fuel q.2).map (fun p => (q.1 ++ p.1, p.2))) ++ [([], s)]
    | none => [([], s)]

/-- Parses of the greedy `\d{1,3}` prefix, longest first. -/
def leadDigitsCands (s : List Char) : List (List Char × List Char) :=
  optToList (takeExact isDigitC 3 s) ++ optToList (takeExact isDigitC 2 s) ++
    optToList (takeExact isDigitC 1 s)

/-- All parses of the unsigned locale number `\d{1,3}(?:\s?\d{3})*,\d{2}`, in
the engine's priority order. -/
def numCands (s : List Char) : List (List Char × List Char) :=
  concatMap
    (fun dp =>
      collectSome
        (fun gp =>
          match gp.2 with
          | c :: r3 =>
            if c = ',' then
              match takeExact isDigitC 2 r3 with
              | some fp => some (dp.1 ++ gp.1 ++ ',' :: fp.1, fp.2)
              | none => none
            else none
          | [] => none)
        (starCands dp.2.length dp.2))
    (leadDigitsCands s)

/-- All parses of the signed amount `-?\d{1,3}(?:\s?\d{3})*,\d{2}`. -/
def amtCands (s : List Char) : List (List Char × List Char) :=
  match s with
  | c :: r =>
    if c = '-' then (numCands r).map (fun p => ('-' :: p.1, p.2)) else numCands s
  | [] => numCands s

/-! ### Lazy `.+?` groups -/

/-- Lazy capture `(.+?)` followed by a continuation: the shortest non-empty
newline-free prefix whose remainder satisfies `cont`. -/
def lazyCapture (cont : List Char → Option β) : List Char → Option (List Char × β)
  | [] => none
  | c :: rest =>
    if c = '\n' then none
    else
      match cont rest with
      | some b => some ([c], b)
      | none =>
        match lazyCapture cont rest with
        | some p => some (c :: p.1, p.2)
        | none => none

/-- `\s+(.+?)` (or `\s*(.+?)` for `minWs = 0`) followed by a continuation,
with the engine's priority: greedy whitespace first, then lazy growth of the
capture; on failure the whitespace run backtracks one character at a time. -/
def wsLazy (minWs : Nat) (cont : List Char → Option β) (s : List Char) :
    Option (List Char × β) :=
  let k := (s.takeWhile isWsC).length
  if k < minWs then none
  else firstSome (fun j => lazyCapture cont (s.drop j)) (List.range' minWs (k + 1 - minWs)).reverse

/-! ### The five catalog rules (`TransactionParser.patterns`) -/

/-- The common tail `\s+(-?NUM)\s+(NUM)$` of the four transaction rules:
returns the amount and balance captures of the first full parse. -/
def matchAmtBalEnd (s : List Char) : Option (List Char × List Char) :=
  match wsPlus s with
  | none => none
  | some r1 =>
    firstSome
      (fun ap =>
        match wsPlus ap.2 with
        | none => none
        | some r3 =>
          firstSome
            (fun bp => if bp.2.isEmpty then some (ap.1, bp.1) else none)
            (numCands r3))
      (amtCands r1)

/-- The `main_transaction` rule
`^(\d{2}\.\d{2}\.\d{4})\s+([A-Z0-9]+)\s+(.+?)\s+(-?NUM)\s+(NUM)$`.
Returns the five captures (date, id, description, amount, balance). -/
def matchMain (s : List Char) :
    Option (List Char × List Char × List Char × List Char × List Char) :=
  match matchDateL s with
  | none => none
  | some dp =>
    match wsPlus dp.2 with
    | none => none
    | some r2 =>
      match takeWhile1 isIdC r2 with
      | none => none
      | some ip =>
        match wsLazy 1 matchAmtBalEnd ip.2 with
        | some lp => some (dp.1, ip.1, lp.1, lp.2.1, lp.2.2)
        | none => none

/-- A specific rule: like `main_transaction` but with a literal-alternation
description.  The alternatives are pairwise non-prefixing, so trying them in
order is the engine's behaviour. -/
def matchWithLits (lits : List String) (s : List Char) :
    Option (List Char × List Char × List Char × List Char × List Char) :=
  match matchDateL s with
  | none => none
  | some dp =>
    match wsPlus dp.2 with
    | none => none
    | some r2 =>
      match takeWhile1 isIdC r2 with
      | none => none
      | some ip =>
        match wsPlus ip.2 with
        | none => none
        | some r4 =>
          firstSome
            (fun lit =>
              match litP lit r4 with
              | none => none
              | some r5 =>
                match matchAmtBalEnd r5 with
                | some ab => some (dp.1, ip.1, lit.data, ab.1, ab.2)
                | none => none)
            lits

/-- Description literals of the `card_transaction` rule. -/
def cardLits : List String :=
  ["ZAKUP PRZY UŻYCIU KARTY", "PŁATNOŚĆ WEB", "ZWROT BLIK"]

/-- Description literals of the `transfer_transaction` rule. -/
def transferLits : List String :=
  ["PRZELEW WYCHODZĄCY", "PRZELEW PRZYCHODZĄCY"]

/-- Description literals of the `currency_exchange` rule. -/
def currencyLits : List String :=
  ["WYMIANA W KANTORZE - UZNANIE", "WYMIANA W KANTORZE - OBCIĄŻENIE"]

/-- The `balance_transfer` rule `^Saldo z przeniesienia\s+(NUM)$`. -/
def matchBalanceTransfer (s : List Char) : Option (List Char) :=
  match litP "Saldo z przeniesienia" s with
  | none => none
  | some r1 =>
    match wsPlus r1 with
    | none => none
    | some r2 =>
      firstSome (fun bp => if bp.2.isEmpty then some bp.1 else none) (numCands r2)

/-! ### Transaction records and the classifier -/

/-- A value stored in a record field or detail mapping. -/
inductive Value where
  | s (v : String)
  | q (v : ℚ)
deriving DecidableEq, Repr

/-- The transaction record built by `parse_transaction_line` and enriched by
the pipeline.  Core fields mirror the dict literal in the source; the
optional fields are the detail keys that `extract_additional_details` may
merge in later; `extra` catches any other merged key (none arises). -/
structure Transaction where
  date : Option String
  transaction_id : String
  type : String
  description : String
  amount : ℚ
  balance : ℚ
  raw_line : String
  pattern_used : String
  source_file : String := ""
  page : Nat := 0
  card_number : Option Value := none
  location : Option Value := none
  phone : Option Value := none
  time : Option Value := none
  original_amount : Option Value := none
  currency_pair : Option Value := none
  exchange_rate : Option Value := none
  pln_amount : Option Value := none
  foreign_amount : Option Value := none
  foreign_currency : Option Value := none
  account_number : Option Value := none
  recipient : Option Value := none
  reference : Option Value := none
  extra : List (String × Value) := []
deriving DecidableEq, Repr

/-- Classifier body over the already-lowercased description. -/
def categorizeLower (dl : List Char) : String :=
  if listContains dl "zakup przy użyciu karty".data then "Card Purchase"
  else if listContains dl "płatność web".data then "Web Payment"
  else if listContains dl "zwrot blik".data then "BLIK Refund"
  else if listContains dl "przelew wychodzący".data then "Outgoing Transfer"
  else if listContains dl "przelew przychodzący".data then "Incoming Transfer"
  else if listContains dl "wymiana w kantorze".data then "Currency Exchange"
  else "Other"

/-- `TransactionParser._categorize_transaction`. -/
def categorize_transaction (description : String) : String :=
  categorizeLower (description.data.map pyLower)

/-- Record built for the four five-group rules. -/
def mkPatternRecord (pname : String) (l : List Char)
    (g : List Char × List Char × List Char × List Char × List Char) : Transaction :=
  { date := some (String.mk g.1)
    transaction_id := String.mk g.2.1
    type := categorize_transaction (String.mk g.2.2.1)
    description := String.mk g.2.2.1
    amount := clean_amount (String.mk g.2.2.2.1)
    balance := clean_amount (String.mk g.2.2.2.2)
    raw_line := String.mk l
    pattern_used := pname }

/-- Body of `parse_transaction_line` on the already-stripped line: try the
five patterns in the dict's insertion order (`main_transaction` first), build
the record for the first match. -/
def parseStripped (l : List Char) : Option Transaction :=
  if l.isEmpty then none
  else
    match matchMain l with
    | some g => some (mkPatternRecord "main_transaction" l g)
    | none =>
      match matchWithLits cardLits l with
      | some g => some (mkPatternRecord "card_transaction" l g)
      | none =>
        match matchWithLits transferLits l with
        | some g => some (mkPatternRecord "transfer_transaction" l g)
        | none =>
          match matchWithLits currencyLits l with
          | some g => some (mkPatternRecord "currency_exchange" l g)
          | none =>
            match matchBalanceTransfer l with
            | some b =>
              some { date := none
                     transaction_id := "BALANCE_TRANSFER"
                     type := "Saldo z przeniesienia"
                     description := "Balance transfer from previous period"
                     amount := 0
                     balance := clean_amount (String.mk b)
                     raw_line := String.mk l
                     pattern_used := "balance_transfer" }
            | none => none

/-- `TransactionParser.parse_transaction_line`: `line = line.strip()`, empty
lines yield nothing, then the pattern cascade. -/
def parse_transaction_line (line : String) : Option Transaction :=
  parseStripped (pyStrip line.data)

/-! ### The five detail patterns (`TransactionParser.detail_patterns`) -/

/-- The terminator `\s+Nr ref:` shared by the card and web detail patterns. -/
def contNrRef (s : List Char) : Option Unit :=
  match wsPlus s with
  | none => none
  | some r => (litP "Nr ref:" r).map (fun _ => ())

/-- `card_details`: date, `Karta:` masked number, `Lokalizacja:` free text up
to `Nr ref:`.  Returns (card number, location). -/
def matchCardDetails (s : List Char) : Option (List Char × List Char) :=
  match matchDateL s with
  | none => none
  | some dp =>
    match wsPlus dp.2 with
    | none => none
    | some r2 =>
      match litP "Karta:" r2 with
      | none => none
      | some r3 =>
        match takeExact isDigitC 6 r3 with
        | none => none
        | some p6 =>
          match takeExact (fun c => c = '*') 4 p6.2 with
          | none => none
          | some ps =>
            match takeExact isDigitC 4 ps.2 with
            | none => none
            | some p4 =>
              match wsPlus p4.2 with
              | none => none
              | some r7 =>
                match litP "Lokalizacja:" r7 with
                | none => none
                | some r8 =>
                  match wsLazy 0 contNrRef r8 with
                  | none => none
                  | some lp => some (p6.1 ++ ps.1 ++ p4.1, lp.1)

/-- `web_payment_details`: date, `Tel:` digits, `Godz.` time, `Lokalizacja:`
free text up to `Nr ref:`.  Returns (phone, time, location). -/
def matchWebDetails (s : List Char) : Option (List Char × List Char × List Char) :=
  match matchDateL s with
  | none => none
  | some dp =>
    match wsPlus dp.2 with
    | none => none
    | some r2 =>
      match litP "Tel:" r2 with
      | none => none
      | some r3 =>
        match takeWhile1 isDigitC r3 with
        | none => none
        | some ph =>
          match wsPlus ph.2 with
          | none => none
          | some r4 =>
            match litP "Godz." r4 with
            | none => none
            | some r5 =>
              match takeExact isDigitC 2 r5 with
              | none => none
              | some h1 =>
                match h1.2 with
                | c1 :: r6 =>
                  if c1 = ':' then
                    match takeExact isDigitC 2 r6 with
                    | none => none
                    | some h2 =>
                      match h2.2 with
                      | c2 :: r7 =>
                        if c2 = ':' then
                          match takeExact isDigitC 2 r7 with
                          | none => none
                          | some h3 =>
                            match wsPlus h3.2 with
                            | none => none
                            | some r8 =>
                              match litP "Lokalizacja:" r8 with
                              | none => none
                              | some r9 =>
                                match wsLazy 0 contNrRef r9 with
                                | none => none
                                | some lp =>
                                  some (ph.1, h1.1 ++ ':' :: h2.1 ++ ':' :: h3.1, lp.1)
                        else none
                      | [] => none
                  else none
                | [] => none

/-- `original_amount`: `Kwota oryg.:` NUM `PLN`.  Returns the amount capture. -/
def matchOriginalAmount (s : List Char) : Option (List Char) :=
  match litP "Kwota oryg.:" s with
  | none => none
  | some r1 =>
    match wsPlus r1 with
    | none => none
    | some r2 =>
      firstSome
        (fun bp =>
          match wsPlus bp.2 with
          | none => none
          | some r3 => (litP "PLN" r3).map (fun _ => bp.1))
        (numCands r2)

/-- `currency_details`: date, id, currency pair, plain-decimal rate, PLN
amount, foreign amount, currency code.  Returns
(pair, rate, pln amount, foreign amount, foreign currency). -/
def matchCurrencyDetails (s : List Char) :
    Option (List Char × List Char × List Char × List Char × List Char) :=
  match matchDateL s with
  | none => none
  | some dp =>
    match wsPlus dp.2 with
    | none => none
    | some r2 =>
      match takeWhile1 isIdC r2 with
      | none => none
      | some ip =>
        match wsPlus ip.2 with
        | none => none
        | some r4 =>
          match takeExact isUpperAZ 3 r4 with
          | none => none
          | some u1 =>
            match u1.2 with
            | c1 :: r5 =>
              if c1 = '/' then
                match takeExact isUpperAZ 3 r5 with
                | none => none
                | some u2 =>
                  match wsPlus u2.2 with
                  | none => none
                  | some r6 =>
                    match takeWhile1 isDigitC r6 with
                    | none => none
                    | some q1 =>
                      match q1.2 with
                      | c2 :: r7 =>
                        if c2 = '.' then
                          match takeWhile1 isDigitC r7 with
                          | none => none
                          | some q2 =>
                            match wsPlus q2.2 with
                            | none => none
                            | some r8 =>
                              firstSome
                                (fun a1 =>
                                  match wsPlus a1.2 with
                                  | none => none
                                  | some r9 =>
                                    match litP "PLN" r9 with
                                    | none => none
                                    | some r10 =>
                                      match wsPlus r10 with
                                      | none => none
                                      | some r11 =>
                                        firstSome
                                          (fun a2 =>
                                            match wsPlus a2.2 with
                                            | none => none
                                            | some r12 =>
                                              match takeExact isUpperAZ 3 r12 with
                                              | none => none
                                              | some u3 =>
                                                some (u1.1 ++ '/' :: u2.1,
                                                  q1.1 ++ '.' :: q2.1, a1.1, a2.1, u3.1))
                                          (amtCands r11))
                                (amtCands r8)
                        else none
                      | [] => none
              else none
            | [] => none

/-- Continuation of the lazy recipient group of `transfer_details`:
`\s+Ref\. wł\. zlec\.:\s+(\d+)`.  Returns the reference capture. -/
def contRefZlec (s : List Char) : Option (List Char) :=
  match wsPlus s with
  | none => none
  | some r =>
    match litP "Ref. wł. zlec.:" r with
    | none => none
    | some r2 =>
      match wsPlus r2 with
      | none => none
      | some r3 => (takeWhile1 isDigitC r3).map (fun p => p.1)

/-- `transfer_details`: `^(\d{10,})\s+(.+?)\s+Ref\. wł\. zlec\.:\s+(\d+)`.
Returns (account number, recipient, reference). -/
def matchTransferDetails (s : List Char) : Option (List Char × List Char × List Char) :=
  match takeWhile1 isDigitC s with
  | none => none
  | some dp =>
    if dp.1.length < 10 then none
    else
      match wsLazy 1 contRefZlec dp.2 with
      | none => none
      | some rp => some (dp.1, rp.1, rp.2)

/-! ### Detail association -/

/-- Ordered-dict insert-or-overwrite, modelling `details[k] = v`. -/
def dinsert : List (String × Value) → String → Value → List (String × Value)
  | [], k, v => [(k, v)]
  | kv :: rest, k, v =>
    if kv.1 = k then (k, v) :: rest else kv :: dinsert rest k v

/-- Dict lookup. -/
def dlookup (k : String) : List (String × Value) → Option Value
  | [] => none
  | kv :: rest => if kv.1 = k then some kv.2 else dlookup k rest

/-- The per-line body of `extract_additional_details` on the stripped line:
test the five detail patterns in order, first match contributes its fields. -/
def detailStepL (d : List (String × Value)) (l : List Char) : List (String × Value) :=
  match matchCardDetails l with
  | some g => dinsert (dinsert d "card_number" (.s (String.mk g.1))) "location" (.s (String.mk g.2))
  | none =>
    match matchWebDetails l with
    | some g =>
      dinsert (dinsert (dinsert d "phone" (.s (String.mk g.1))) "time" (.s (String.mk g.2.1)))
        "location" (.s (String.mk g.2.2))
    | none =>
      match matchOriginalAmount l with
      | some a => dinsert d "original_amount" (.q (clean_amount (String.mk a)))
      | none =>
        match matchCurrencyDetails l with
        | some g =>
          dinsert
            (dinsert
              (dinsert
                (dinsert (dinsert d "currency_pair" (.s (String.mk g.1)))
                  "exchange_rate" (.q ((parsePyFloat g.2.1).getD 0)))
                "pln_amount" (.q (clean_amount (String.mk g.2.2.1))))
              "foreign_amount" (.q (clean_amount (String.mk g.2.2.2.1))))
            "foreign_currency" (.s (String.mk g.2.2.2.2))
        | none =>
          match matchTransferDetails l with
          | some g =>
            dinsert
              (dinsert (dinsert d "account_number" (.s (String.mk g.1)))
                "recipient" (.s (String.mk g.2.1)))
              "reference" (.s (String.mk g.2.2))
          | none => d

/-- Per-line body of `extract_additional_details` (`line = lines[i].strip()`
then the detail-pattern cascade). -/
def detailStep (d : List (String × Value)) (rawLine : String) : List (String × Value) :=
  detailStepL d (pyStrip rawLine.data)

/-- `TransactionParser.extract_additional_details`: scan lines
`transaction_index + 1` through `min (transaction_index + 5, len lines) - 1`. -/
def extract_additional_details (lines : List String) (ti : Nat) : List (String × Value) :=
  ((List.range' (ti + 1) (min (ti + 5) lines.length - (ti + 1))).map
    (fun j => lines.getD j "")).foldl detailStep []

/-- Detail extraction expressed over an explicit window of lines. -/
def detailsOfWindow (w : List String) : List (String × Value) :=
  w.foldl detailStep []

/-! ### Pipeline -/

/-- Merge one key of the detail dict into the record (`transaction.update`).
The key set produced by `extract_additional_details` is exactly the thirteen
detail keys; any other key would land in `extra`. -/
def setKey (t : Transaction) (k : String) (v : Value) : Transaction :=
  if k = "card_number" then { t with card_number := some v }
  else if k = "location" then { t with location := some v }
  else if k = "phone" then { t with phone := some v }
  else if k = "time" then { t with time := some v }
  else if k = "original_amount" then { t with original_amount := some v }
  else if k = "currency_pair" then { t with currency_pair := some v }
  else if k = "exchange_rate" then { t with exchange_rate := some v }
  else if k = "pln_amount" then { t with pln_amount := some v }
  else if k = "foreign_amount" then { t with foreign_amount := some v }
  else if k = "foreign_currency" then { t with foreign_currency := some v }
  else if k = "account_number" then { t with account_number := some v }
  else if k = "recipient" then { t with recipient := some v }
  else if k = "reference" then { t with reference := some v }
  else { t with extra := dinsert t.extra k v }

/-- `transaction.update(details)`. -/
def applyDetails (t : Transaction) (d : List (String × Value)) : Transaction :=
  d.foldl (fun acc kv => setKey acc kv.1 kv.2) t

/-- Per-page body of `parse_pdf_file`: skip pages with no text, split into
lines, parse each line, stamp provenance, merge details. -/
def process_page (fname : String) (pnum : Nat) (text : String) : List Transaction :=
  if text = "" then []
  else
    let lines := text.splitOn "\n"
    lines.enum.filterMap
      (fun p =>
        (parse_transaction_line p.2).map
          (fun t =>
            applyDetails { t with source_file := fname, page := pnum }
              (extract_additional_details lines p.1)))

/-- The page loop of `parse_pdf_file` over the extracted page texts (the
pdfplumber I/O wrapper is outside the modelled core); pages are numbered
from 1 including empty ones, as `enumerate(pdf.pages, 1)` does. -/
def parse_pdf_pages (fname : String) (pages : List String) : List Transaction :=
  concatMap (fun p => process_page fname (p.1 + 1) p.2) pages.enum

/-! ### Specification-side vocabulary used by the claims -/

/-- The five detail patterns, as an enumeration for disjointness statements. -/
inductive DetailPat where
  | card
  | web
  | orig
  | curr
  | transferKind
deriving DecidableEq

/-- The detail keys each detail pattern writes (transcribed from
`extract_additional_details`). -/
def detail_keys : DetailPat → List String
  | .card => ["card_number", "location"]
  | .web => ["phone", "time", "location"]
  | .orig => ["original_amount"]
  | .curr => ["currency_pair", "exchange_rate", "pln_amount", "foreign_amount", "foreign_currency"]
  | .transferKind => ["account_number", "recipient", "reference"]

/-- All thirteen detail keys. -/
def detailKeysAll : List String :=
  ["card_number", "location", "phone", "time", "original_amount", "currency_pair",
   "exchange_rate", "pln_amount", "foreign_amount", "foreign_currency",
   "account_number", "recipient", "reference"]

/-- A stripped line matching none of the five detail patterns. -/
def matchesNoDetailL (l : List Char) : Bool :=
  (matchCardDetails l).isNone && (matchWebDetails l).isNone &&
    (matchOriginalAmount l).isNone && (matchCurrencyDetails l).isNone &&
    (matchTransferDetails l).isNone

/-- A line matching none of the five detail patterns. -/
def matchesNoDetail (w : String) : Bool :=
  matchesNoDetailL (pyStrip w.data)

/-- Well-formed date component `\d{2}\.\d{2}\.\d{4}`. -/
def dateWF (s : String) : Bool :=
  match s.data with
  | [a, b, c, d, e, f, g, h, i, j] =>
    isDigitC a && isDigitC b && c = '.' && isDigitC d && isDigitC e && f = '.' &&
      isDigitC g && isDigitC h && isDigitC i && isDigitC j
  | _ => false

/-- Well-formed transaction-id component `[A-Z0-9]+`. -/
def idWF (s : String) : Bool :=
  !s.data.isEmpty && s.data.all isIdC

/-- A description component usable in the five-field shape: non-empty, no
newline, not starting with whitespace. -/
def descWF (s : String) : Bool :=
  match s.data with
  | [] => false
  | c :: cs => !isWsC c && (c :: cs).all (fun x => x ≠ '\n')

/-- Well-formed unsigned balance component: a full parse of the locale-number
group. -/
def balWF (s : String) : Bool :=
  (numCands s.data).any (fun p => p.2.isEmpty)

/-- Well-formed signed amount component. -/
def amtWF (s : String) : Bool :=
  (amtCands s.data).any (fun p => p.2.isEmpty)

/-- A description containing none of the classifier's six key phrases. -/
def phraseFreeB (s : String) : Bool :=
  !listContains (s.data.map pyLower) "zakup przy użyciu karty".data &&
    !listContains (s.data.map pyLower) "płatność web".data &&
    !listContains (s.data.map pyLower) "zwrot blik".data &&
    !listContains (s.data.map pyLower) "przelew wychodzący".data &&
    !listContains (s.data.map pyLower) "przelew przychodzący".data &&
    !listContains (s.data.map pyLower) "wymiana w kantorze".data

/-! ### Shape predicates describing the languages of the number groups -/

/-- The language of one `(?:\s?\d{3})` repetition. -/
def RepShape (m : List Char) : Prop :=
  (∃ w d, m = w :: d ∧ isWsC w = true ∧ d.length = 3 ∧ ∀ c ∈ d, isDigitC c = true) ∨
    (m.length = 3 ∧ ∀ c ∈ m, isDigitC c = true)

/-- The language of `(?:\s?\d{3})*`. -/
inductive GroupsShape : List Char → Prop
  | nil : GroupsShape []
  | cons (m rest : List Char) : RepShape m → GroupsShape rest → GroupsShape (m ++ rest)

/-- The language of the unsigned locale number `\d{1,3}(?:\s?\d{3})*,\d{2}`. -/
def NumShape (m : List Char) : Prop :=
  ∃ d g f, m = d ++ g ++ ',' :: f ∧ 1 ≤ d.length ∧ d.length ≤ 3 ∧
    (∀ c ∈ d, isDigitC c = true) ∧ GroupsShape g ∧ f.length = 2 ∧ (∀ c ∈ f, isDigitC c = true)

/-- The language of the signed amount `-?\d{1,3}(?:\s?\d{3})*,\d{2}`. -/
def AmtShape (m : List Char) : Prop :=
  NumShape m ∨ ∃ m', m = '-' :: m' ∧ NumShape m'

/-! ## Lemmas: character classes -/

theorem ws_cases {c : Char} (h : isWsC c = true) :
    c = ' ' ∨ c = '\t' ∨ c = '\n' ∨ c = '\r' ∨ c = '\x0b' ∨ c = '\x0c' := by
  simpa [isWsC, or_assoc] using h

theorem ws_not_digit {c : Char} (h : isWsC c = true) : isDigitC c = false := by
  rcases ws_cases h with rfl | rfl | rfl | rfl | rfl | rfl <;> decide

theorem digit_not_ws {c : Char} (h : isDigitC c = true) : isWsC c = false := by
  cases hw : isWsC c
  · rfl
  · rw [ws_not_digit hw] at h
    cases h

theorem idC_not_ws {c : Char} (h : isIdC c = true) : isWsC c = false := by
  cases hw : isWsC c
  · rfl
  · rcases ws_cases hw with rfl | rfl | rfl | rfl | rfl | rfl <;> exact absurd h (by decide)

theorem digit_ne_minus {c : Char} (h : isDigitC c = true) : c ≠ '-' := by
  rintro rfl
  exact absurd h (by decide)

theorem ws_ne_minus {c : Char} (h : isWsC c = true) : c ≠ '-' := by
  rintro rfl
  exact absurd h (by decide)

/-! ## Lemmas: primitive combinators -/

theorem takeExact_sound {p : Char → Bool} :
    ∀ {n : Nat} {s : List Char} {q : List Char × List Char},
      takeExact p n s = some q →
      q.1.length = n ∧ (∀ c ∈ q.1, p c = true) ∧ s = q.1 ++ q.2 := by
  intro n
  induction n with
  | zero =>
    intro s q h
    simp only [takeExact, Option.some.injEq] at h
    subst h
    simp
  | succ k ih =>
    intro s q h
    cases s with
    | nil => simp [takeExact] at h
    | cons c rest =>
      rw [takeExact] at h
      split at h
      · cases hk : takeExact p k rest with
        | none => rw [hk] at h; simp at h
        | some q0 =>
          rw [hk] at h
          simp only [Option.map_some', Option.some.injEq] at h
          subst h
          obtain ⟨h1, h2, h3⟩ := ih hk
          refine ⟨by simp [h1], ?_, by simp [h3]⟩
          intro x hx
          rcases List.mem_cons.mp hx with rfl | hx
          · assumption
          · exact h2 x hx
      · cases h

theorem takeExact_complete {p : Char → Bool} :
    ∀ {m : List Char} (r : List Char), (∀ c ∈ m, p c = true) →
      takeExact p m.length (m ++ r) = some (m, r) := by
  intro m
  induction m with
  | nil => intro r _; simp [takeExact]
  | cons c t ih =>
    intro r h
    have hc : p c = true := h c (List.mem_cons_self c t)
    simp only [List.length_cons, List.cons_append, takeExact, hc, if_true]
    rw [show t.append r = t ++ r from rfl, ih r (fun x hx => h x (List.mem_cons_of_mem c hx))]
    rfl

theorem takeWhile_dropWhile_append {p : Char → Bool} :
    ∀ {m r : List Char}, (∀ c ∈ m, p c = true) →
      (∀ c, r.head? = some c → p c = false) →
      (m ++ r).takeWhile p = m ∧ (m ++ r).dropWhile p = r := by
  intro m
  induction m with
  | nil =>
    intro r _ hr
    cases r with
    | nil => simp
    | cons c t => simp [List.takeWhile_cons, List.dropWhile_cons, hr c rfl]
  | cons c t ih =>
    intro r h hr
    have hc : p c = true := h c (List.mem_cons_self c t)
    obtain ⟨h1, h2⟩ := ih (fun x hx => h x (List.mem_cons_of_mem c hx)) hr
    simp [List.takeWhile_cons, List.dropWhile_cons, hc, h1, h2]

theorem takeWhile1_complete {p : Char → Bool} {c : Char} {t r : List Char}
    (h : ∀ x ∈ c :: t, p x = true) (hr : ∀ x, r.head? = some x → p x = false) :
    takeWhile1 p ((c :: t) ++ r) = some (c :: t, r) := by
  obtain ⟨h1, h2⟩ := takeWhile_dropWhile_append h hr
  simp only [takeWhile1, List.cons_append]
  rw [if_pos (h c (List.mem_cons_self c t))]
  rw [show (c :: (t ++ r)) = (c :: t) ++ r from rfl, h1, h2]

theorem takeWhile1_sound {p : Char → Bool} {s : List Char} {q : List Char × List Char}
    (h : takeWhile1 p s = some q) :
    (∀ c ∈ q.1, p c = true) ∧ s = q.1 ++ q.2 := by
  cases s with
  | nil => simp [takeWhile1] at h
  | cons c rest =>
    rw [takeWhile1] at h
    split at h
    · simp only [Option.some.injEq] at h
      subst h
      exact ⟨fun x hx => List.mem_takeWhile_imp hx, (List.takeWhile_append_dropWhile ..).symm⟩
    · cases h

theorem litGo_complete : ∀ (lit r : List Char), litGo lit (lit ++ r) = some r := by
  intro lit
  induction lit with
  | nil => intro r; rfl
  | cons a as ih => intro r; simp [litGo, ih]

theorem litGo_sound : ∀ {lit s r : List Char}, litGo lit s = some r → s = lit ++ r := by
  intro lit
  induction lit with
  | nil =>
    intro s r h
    simp only [litGo, Option.some.injEq] at h
    simp [h]
  | cons a as ih =>
    intro s r h
    cases s with
    | nil => simp [litGo] at h
    | cons b bs =>
      rw [litGo] at h
      split at h
      · next hb => rw [List.cons_append, ← ih h, hb]
      · cases h

theorem wsPlus_cons {c : Char} {rest : List Char} (hc : isWsC c = true)
    (hr : ∀ x, rest.head? = some x → isWsC x = false) :
    wsPlus (c :: rest) = some rest := by
  simp only [wsPlus]
  rw [if_pos hc]
  congr 1
  rw [List.dropWhile_cons, if_pos hc]
  cases rest with
  | nil => rfl
  | cons d t => rw [List.dropWhile_cons, if_neg (by simp [hr d rfl])]

theorem firstSome_mem {f : α → Option β} :
    ∀ {l : List α} {b : β}, firstSome f l = some b → ∃ a ∈ l, f a = some b := by
  intro l
  induction l with
  | nil => intro b h; simp [firstSome] at h
  | cons a t ih =>
    intro b h
    rw [firstSome] at h
    cases ha : f a with
    | some b0 =>
      simp only [ha] at h
      exact ⟨a, List.mem_cons_self a t, by rw [ha, h]⟩
    | none =>
      simp only [ha] at h
      obtain ⟨x, hx, he⟩ := ih h
      exact ⟨x, List.mem_cons_of_mem a hx, he⟩

theorem firstSome_isSome {f : α → Option β} :
    ∀ {l : List α} {a : α}, a ∈ l → (f a).isSome = true → (firstSome f l).isSome = true := by
  intro l
  induction l with
  | nil => intro a ha _; cases ha
  | cons x t ih =>
    intro a ha hf
    rw [firstSome]
    cases hx : f x with
    | some b => rfl
    | none =>
      rcases List.mem_cons.mp ha with rfl | ha
      · rw [hx] at hf; cases hf
      · exact ih ha hf

theorem mem_optToList {o : Option α} {a : α} : a ∈ optToList o ↔ o = some a := by
  cases o <;> simp [optToList, eq_comm]

theorem mem_collectSome {f : α → Option β} :
    ∀ {l : List α} {b : β}, b ∈ collectSome f l ↔ ∃ a ∈ l, f a = some b := by
  intro l
  induction l with
  | nil => intro b; simp [collectSome]
  | cons a t ih =>
    intro b
    rw [collectSome]
    cases ha : f a with
    | some b0 =>
      simp only [List.mem_cons, ih]
      constructor
      · rintro (rfl | ⟨x, hx, he⟩)
        · exact ⟨a, Or.inl rfl, ha⟩
        · exact ⟨x, Or.inr hx, he⟩
      · rintro ⟨x, rfl | hx, he⟩
        · rw [ha] at he
          injection he with he
          exact Or.inl he.symm
        · exact Or.inr ⟨x, hx, he⟩
    | none =>
      simp only [ih, List.mem_cons]
      constructor
      · rintro ⟨x, hx, he⟩; exact ⟨x, Or.inr hx, he⟩
      · rintro ⟨x, rfl | hx, he⟩
        · rw [ha] at he; cases he
        · exact ⟨x, hx, he⟩

theorem mem_concatMap {f : α → List β} :
    ∀ {l : List α} {b : β}, b ∈ concatMap f l ↔ ∃ a ∈ l, b ∈ f a := by
  intro l
  induction l with
  | nil => intro b; simp [concatMap]
  | cons a t ih => intro b; simp [concatMap, ih, List.mem_cons, or_and_right, exists_or]

/-! ## Lemmas: the locale-number candidate lists -/

theorem rep3_sound {s : List Char} {q : List Char × List Char} (h : rep3 s = some q) :
    RepShape q.1 ∧ s = q.1 ++ q.2 := by
  cases s with
  | nil => simp [rep3] at h
  | cons c rest =>
    rw [rep3] at h
    split at h
    · next hc =>
      cases hk : takeExact isDigitC 3 rest with
      | none => rw [hk] at h; cases h
      | some q0 =>
        rw [hk] at h
        injection h with h
        subst h
        obtain ⟨h1, h2, h3⟩ := takeExact_sound hk
        exact ⟨Or.inl ⟨c, q0.1, rfl, hc, h1, h2⟩, by simp [h3]⟩
    · obtain ⟨h1, h2, h3⟩ := takeExact_sound h
      exact ⟨Or.inr ⟨h1, h2⟩, h3⟩

theorem rep3_complete {m : List Char} (r : List Char) (h : RepShape m) :
    rep3 (m ++ r) = some (m, r) := by
  rcases h with ⟨w, d, rfl, hw, hd3, hdig⟩ | ⟨h3, hdig⟩
  · have ht : takeExact isDigitC 3 (d ++ r) = some (d, r) := by
      rw [← hd3]; exact takeExact_complete r hdig
    simp only [List.cons_append, rep3]
    rw [if_pos hw]
    simp [ht]
  · cases m with
    | nil => simp at h3
    | cons c t =>
      have hc : isDigitC c = true := hdig c (List.mem_cons_self c t)
      have ht : takeExact isDigitC 3 ((c :: t) ++ r) = some (c :: t, r) := by
        rw [← h3]; exact takeExact_complete r hdig
      simp only [List.cons_append, rep3]
      rw [if_neg (by simp [digit_not_ws hc])]
      simpa using ht

theorem starCands_sound :
    ∀ {fuel : Nat} {s : List Char} {q : List Char × List Char},
      q ∈ starCands fuel s → GroupsShape q.1 ∧ s = q.1 ++ q.2 := by
  intro fuel
  induction fuel with
  | zero =>
    intro s q h
    simp only [starCands, List.mem_singleton] at h
    subst h
    exact ⟨.nil, rfl⟩
  | succ k ih =>
    intro s q h
    rw [starCands] at h
    cases h3 : rep3 s with
    | none =>
      rw [h3] at h
      simp only [List.mem_singleton] at h
      subst h
      exact ⟨.nil, rfl⟩
    | some q0 =>
      rw [h3] at h
      rcases List.mem_append.mp h with hm | hm
      · obtain ⟨p, hp, he⟩ := List.mem_map.mp hm
        obtain ⟨hsh, hse⟩ := ih hp
        obtain ⟨hr1, hr2⟩ := rep3_sound h3
        subst he
        exact ⟨.cons q0.1 p.1 hr1 hsh, by simp [hr2, hse, List.append_assoc]⟩
      · simp only [List.mem_singleton] at hm
        subst hm
        exact ⟨.nil, rfl⟩

theorem RepShape_length {m : List Char} (h : RepShape m) : 3 ≤ m.length := by
  rcases h with ⟨w, d, rfl, _, hd3, _⟩ | ⟨h3, _⟩
  · simp [hd3]
  · omega

theorem starCands_complete :
    ∀ {g : List Char}, GroupsShape g → ∀ (r : List Char) (fuel : Nat),
      g.length ≤ fuel → (g, r) ∈ starCands fuel (g ++ r) := by
  intro g hg
  induction hg with
  | nil =>
    intro r fuel _
    cases fuel with
    | zero => simp [starCands]
    | succ k =>
      rw [List.nil_append, starCands]
      cases h3 : rep3 r with
      | none => simp
      | some q0 => simp
  | cons m rest hm hrest ih =>
    intro r fuel hlen
    have hm3 : 3 ≤ m.length := RepShape_length hm
    rw [List.length_append] at hlen
    cases fuel with
    | zero => omega
    | succ k =>
      rw [starCands, List.append_assoc, rep3_complete (rest ++ r) hm]
      refine List.mem_append_left _ (List.mem_map.mpr ⟨(rest, r), ih r k (by omega), rfl⟩)

theorem GroupsShape_chars {g : List Char} (h : GroupsShape g) :
    ∀ c ∈ g, isDigitC c = true ∨ isWsC c = true := by
  induction h with
  | nil => intro c hc; cases hc
  | cons m rest hm _ ih =>
    intro c hc
    rcases List.mem_append.mp hc with hc | hc
    · rcases hm with ⟨w, d, rfl, hw, _, hdig⟩ | ⟨_, hdig⟩
      · rcases List.mem_cons.mp hc with rfl | hc
        · exact Or.inr hw
        · exact Or.inl (hdig c hc)
      · exact Or.inl (hdig c hc)
    · exact ih c hc

theorem leadDigitsCands_sound {s : List Char} {q : List Char × List Char}
    (h : q ∈ leadDigitsCands s) :
    1 ≤ q.1.length ∧ q.1.length ≤ 3 ∧ (∀ c ∈ q.1, isDigitC c = true) ∧ s = q.1 ++ q.2 := by
  rcases List.mem_append.mp h with h' | h'
  · rcases List.mem_append.mp h' with h'' | h''
    · obtain ⟨h1, h2, h3⟩ := takeExact_sound (mem_optToList.mp h'')
      exact ⟨by omega, by omega, h2, h3⟩
    · obtain ⟨h1, h2, h3⟩ := takeExact_sound (mem_optToList.mp h'')
      exact ⟨by omega, by omega, h2, h3⟩
  · obtain ⟨h1, h2, h3⟩ := takeExact_sound (mem_optToList.mp h')
    exact ⟨by omega, by omega, h2, h3⟩

theorem leadDigitsCands_complete {d : List Char} (r : List Char) (h1 : 1 ≤ d.length)
    (h2 : d.length ≤ 3) (h3 : ∀ c ∈ d, isDigitC c = true) :
    (d, r) ∈ leadDigitsCands (d ++ r) := by
  have : d.length = 1 ∨ d.length = 2 ∨ d.length = 3 := by omega
  rcases this with hl | hl | hl
  · exact List.mem_append_right _
      (mem_optToList.mpr (by rw [← hl, takeExact_complete r h3]))
  · exact List.mem_append_left _ (List.mem_append_right _
      (mem_optToList.mpr (by rw [← hl, takeExact_complete r h3])))
  · exact List.mem_append_left _ (List.mem_append_left _
      (mem_optToList.mpr (by rw [← hl, takeExact_complete r h3])))

theorem numCands_sound {s : List Char} {q : List Char × List Char} (h : q ∈ numCands s) :
    NumShape q.1 ∧ s = q.1 ++ q.2 := by
  obtain ⟨dp, hdp, hin⟩ := mem_concatMap.mp h
  obtain ⟨gp, hgp, heq⟩ := mem_collectSome.mp hin
  obtain ⟨hd1, hd2, hd3, hds⟩ := leadDigitsCands_sound hdp
  obtain ⟨hgs, hge⟩ := starCands_sound hgp
  cases hg2 : gp.2 with
  | nil => simp only [hg2] at heq; cases heq
  | cons c r3 =>
    simp only [hg2] at heq
    split at heq
    · next hc =>
      subst hc
      cases hf : takeExact isDigitC 2 r3 with
      | none => simp only [hf] at heq; cases heq
      | some fp =>
        simp only [hf, Option.some.injEq] at heq
        subst heq
        obtain ⟨hf1, hf2, hf3⟩ := takeExact_sound hf
        constructor
        · exact ⟨dp.1, gp.1, fp.1, rfl, hd1, hd2, hd3, hgs, hf1, hf2⟩
        · rw [hds, hge, hg2, hf3]
          simp [List.append_assoc]
    · cases heq

theorem numCands_complete {m : List Char} (r : List Char) (h : NumShape m) :
    (m, r) ∈ numCands (m ++ r) := by
  obtain ⟨d, g, f, rfl, hd1, hd2, hd3, hg, hf1, hf2⟩ := h
  apply mem_concatMap.mpr
  refine ⟨(d, g ++ ',' :: f ++ r), ?_, ?_⟩
  · have := leadDigitsCands_complete (g ++ ',' :: f ++ r) hd1 hd2 hd3
    simpa [List.append_assoc] using this
  · apply mem_collectSome.mpr
    refine ⟨(g, ',' :: (f ++ r)), ?_, ?_⟩
    · have := starCands_complete hg (',' :: (f ++ r)) (g ++ ',' :: (f ++ r)).length
        (by simp [List.length_append])
      simpa using this
    · have ht : takeExact isDigitC 2 (f ++ r) = some (f, r) := by
        rw [← hf1]; exact takeExact_complete r hf2
      simp [ht, List.append_assoc]

theorem NumShape_head {m : List Char} (h : NumShape m) :
    ∃ c t, m = c :: t ∧ isDigitC c = true := by
  obtain ⟨d, g, f, rfl, hd1, _, hd3, _, _, _⟩ := h
  cases d with
  | nil => simp at hd1
  | cons c t =>
    exact ⟨c, t ++ g ++ ',' :: f, by simp [List.append_assoc], hd3 c (List.mem_cons_self c t)⟩

theorem NumShape_chars {m : List Char} (h : NumShape m) :
    ∀ c ∈ m, isDigitC c = true ∨ isWsC c = true ∨ c = ',' := by
  obtain ⟨d, g, f, rfl, _, _, hd3, hg, _, hf2⟩ := h
  intro c hc
  simp only [List.append_assoc, List.mem_append, List.mem_cons] at hc
  rcases hc with hc | hc | hc
  · exact Or.inl (hd3 c hc)
  · rcases GroupsShape_chars hg c hc with h' | h'
    · exact Or.inl h'
    · exact Or.inr (Or.inl h')
  · rcases hc with rfl | hc
    · exact Or.inr (Or.inr rfl)
    · exact Or.inl (hf2 c hc)

theorem NumShape_no_minus {m : List Char} (h : NumShape m) : '-' ∉ m := by
  intro hm
  rcases NumShape_chars h '-' hm with h' | h' | h'
  · exact absurd h' (by decide)
  · exact absurd h' (by decide)
  · exact absurd h' (by decide)

theorem NumShape_last {m : List Char} (h : NumShape m) :
    ∃ pre c, m = pre ++ [c] ∧ isDigitC c = true := by
  obtain ⟨d, g, f, rfl, _, _, _, _, hf1, hf2⟩ := h
  obtain ⟨a, b, rfl⟩ := List.length_eq_two.mp hf1
  refine ⟨d ++ g ++ [',', a], b, by simp [List.append_assoc], hf2 b (by simp)⟩

theorem amtCands_sound {s : List Char} {q : List Char × List Char} (h : q ∈ amtCands s) :
    AmtShape q.1 ∧ s = q.1 ++ q.2 := by
  cases s with
  | nil => exact ⟨Or.inl (numCands_sound h).1, (numCands_sound h).2⟩
  | cons c r =>
    rw [amtCands] at h
    split at h
    · next hc =>
      subst hc
      obtain ⟨p, hp, he⟩ := List.mem_map.mp h
      obtain ⟨hn, hs⟩ := numCands_sound hp
      subst he
      exact ⟨Or.inr ⟨p.1, rfl, hn⟩, by simp [hs]⟩
    · exact ⟨Or.inl (numCands_sound h).1, (numCands_sound h).2⟩

theorem amtCands_complete {m : List Char} (r : List Char) (h : AmtShape m) :
    (m, r) ∈ amtCands (m ++ r) := by
  rcases h with hn | ⟨m', rfl, hn⟩
  · obtain ⟨c, t, rfl, hc⟩ := NumShape_head hn
    rw [List.cons_append, amtCands, if_neg (by simp [digit_ne_minus hc])]
    exact numCands_complete r hn
  · rw [List.cons_append, amtCands, if_pos rfl]
    exact List.mem_map.mpr ⟨(m', r), numCands_complete r hn, rfl⟩

theorem AmtShape_head {m : List Char} (h : AmtShape m) :
    ∃ c t, m = c :: t ∧ isWsC c = false := by
  rcases h with hn | ⟨m', rfl, _⟩
  · obtain ⟨c, t, rfl, hc⟩ := NumShape_head hn
    exact ⟨c, t, rfl, digit_not_ws hc⟩
  · exact ⟨'-', m', rfl, by decide⟩

/-! ## Lemmas: lazy captures and the shared amount-balance tail -/

theorem lazyCapture_sound {β : Type} {cont : List Char → Option β} :
    ∀ {s : List Char} {m : List Char} {b : β},
      lazyCapture cont s = some (m, b) → ∃ q, s = m ++ q ∧ cont q = some b := by
  intro s
  induction s with
  | nil => intro m b h; simp [lazyCapture] at h
  | cons c rest ih =>
    intro m b h
    rw [lazyCapture] at h
    split at h
    · cases h
    · cases hc : cont rest with
      | some b0 =>
        simp only [hc, Option.some.injEq] at h
        obtain ⟨rfl, rfl⟩ := Prod.mk.injEq .. ▸ h
        exact ⟨rest, rfl, hc⟩
      | none =>
        simp only [hc] at h
        cases hl : lazyCapture cont rest with
        | none => simp only [hl] at h; cases h
        | some p =>
          simp only [hl, Option.some.injEq] at h
          obtain ⟨rfl, rfl⟩ := Prod.mk.injEq .. ▸ h
          obtain ⟨q, hq, hcq⟩ := ih (show lazyCapture cont rest = some (p.1, p.2) from hl)
          exact ⟨q, by simp [hq], hcq⟩

theorem lazyCapture_of_split {β : Type} {cont : List Char → Option β} :
    ∀ {p : List Char} (q : List Char) {b : β}, p ≠ [] → (∀ c ∈ p, c ≠ '\n') →
      cont q = some b →
      ∃ m b', lazyCapture cont (p ++ q) = some (m, b') ∧ m <+: p := by
  intro p
  induction p with
  | nil => intro q b h; cases h rfl
  | cons c t ih =>
    intro q b _ hnl hc
    have hcnl : ¬ c = '\n' := hnl c (List.mem_cons_self c t)
    rw [List.cons_append, lazyCapture, if_neg hcnl]
    cases hct : cont (t ++ q) with
    | some b0 => exact ⟨[c], b0, rfl, ⟨t, rfl⟩⟩
    | none =>
      cases t with
      | nil =>
        rw [List.nil_append] at hct
        rw [hct] at hc
        cases hc
      | cons d u =>
        obtain ⟨m, b', hl, hpre⟩ :=
          ih q (by simp) (fun x hx => hnl x (List.mem_cons_of_mem c hx)) hc
        rw [hl]
        obtain ⟨e, he⟩ := hpre
        exact ⟨c :: m, b', rfl, ⟨e, by simp [← he]⟩⟩

theorem wsLazy_sound {β : Type} {minWs : Nat} {cont : List Char → Option β}
    {s : List Char} {m : List Char} {b : β}
    (h : wsLazy minWs cont s = some (m, b)) : ∃ q, cont q = some b := by
  simp only [wsLazy] at h
  split at h
  · cases h
  · obtain ⟨j, _, hl⟩ := firstSome_mem h
    obtain ⟨q, _, hc⟩ := lazyCapture_sound hl
    exact ⟨q, hc⟩

theorem wsLazy_one_space {β : Type} {cont : List Char → Option β} {c : Char} {t rest : List Char}
    (hc : isWsC c = false) :
    wsLazy 1 cont (' ' :: c :: (t ++ rest)) = lazyCapture cont (c :: (t ++ rest)) := by
  simp only [wsLazy, List.cons_append]
  have hk : (List.takeWhile isWsC (' ' :: c :: (t ++ rest))).length = 1 := by
    rw [List.takeWhile_cons, if_pos (by decide), List.takeWhile_cons, if_neg (by simp [hc])]
    rfl
  rw [hk, if_neg (by omega), show (List.range' 1 (1 + 1 - 1)).reverse = [1] from rfl, firstSome]
  simp only [List.drop_succ_cons, List.drop_zero]
  cases hl : lazyCapture cont (c :: (t ++ rest)) with
  | none => simp [hl, firstSome]
  | some p => simp [hl]

theorem matchAmtBalEnd_sound {s : List Char} {q : List Char × List Char}
    (h : matchAmtBalEnd s = some q) : AmtShape q.1 ∧ NumShape q.2 := by
  unfold matchAmtBalEnd at h
  cases h1 : wsPlus s with
  | none => rw [h1] at h; cases h
  | some r1 =>
    rw [h1] at h
    obtain ⟨ap, hap, he⟩ := firstSome_mem h
    cases h2 : wsPlus ap.2 with
    | none => rw [h2] at he; cases he
    | some r3 =>
      rw [h2] at he
      obtain ⟨bp, hbp, he2⟩ := firstSome_mem he
      split at he2
      · simp only [Option.some.injEq] at he2
        subst he2
        exact ⟨(amtCands_sound hap).1, (numCands_sound hbp).1⟩
      · cases he2

theorem matchAmtBalEnd_complete {amt bal : List Char} (ha : AmtShape amt) (hb : NumShape bal) :
    ∃ q, matchAmtBalEnd (' ' :: (amt ++ ' ' :: bal)) = some q := by
  obtain ⟨c, t, hct, hcw⟩ := AmtShape_head ha
  obtain ⟨cb, tb, hcbt, hcbd⟩ := NumShape_head hb
  have hws : wsPlus (' ' :: (amt ++ ' ' :: bal)) = some (amt ++ ' ' :: bal) := by
    apply wsPlus_cons (by decide)
    intro x hx
    rw [hct] at hx
    rw [List.cons_append] at hx
    injection hx with hx
    rw [← hx]
    exact hcw
  have hmem : (amt, ' ' :: bal) ∈ amtCands (amt ++ ' ' :: bal) := amtCands_complete _ ha
  have hwsb : wsPlus (' ' :: bal) = some bal := by
    apply wsPlus_cons (by decide)
    intro x hx
    rw [hcbt] at hx
    injection hx with hx
    rw [← hx]
    exact digit_not_ws hcbd
  have hbmem : (bal, ([] : List Char)) ∈ numCands bal := by
    have := numCands_complete ([] : List Char) hb
    simpa using this
  have hinner :
      (firstSome (fun bp => if bp.2.isEmpty then some (amt, bp.1) else none)
        (numCands bal)).isSome = true := by
    apply firstSome_isSome hbmem
    simp
  have houter :
      (firstSome
        (fun ap =>
          match wsPlus ap.2 with
          | none => none
          | some r3 =>
            firstSome (fun bp => if bp.2.isEmpty then some (ap.1, bp.1) else none)
              (numCands r3))
        (amtCands (amt ++ ' ' :: bal))).isSome = true := by
    apply firstSome_isSome hmem
    simp only [hwsb]
    exact hinner
  unfold matchAmtBalEnd
  rw [hws]
  exact Option.isSome_iff_exists.mp houter

/-! ## Lemmas: balance captures of the catalog rules satisfy the number shape -/

theorem matchMain_balance {s : List Char}
    {g : List Char × List Char × List Char × List Char × List Char}
    (h : matchMain s = some g) : NumShape g.2.2.2.2 := by
  unfold matchMain at h
  cases h1 : matchDateL s with
  | none => simp only [h1] at h; cases h
  | some dp =>
    simp only [h1] at h
    cases h2 : wsPlus dp.2 with
    | none => simp only [h2] at h; cases h
    | some r2 =>
      simp only [h2] at h
      cases h3 : takeWhile1 isIdC r2 with
      | none => simp only [h3] at h; cases h
      | some ip =>
        simp only [h3] at h
        cases h4 : wsLazy 1 matchAmtBalEnd ip.2 with
        | none => simp only [h4] at h; cases h
        | some lp =>
          simp only [h4, Option.some.injEq] at h
          subst h
          obtain ⟨q, hq⟩ := wsLazy_sound h4
          exact (matchAmtBalEnd_sound (show matchAmtBalEnd q = some (lp.2.1, lp.2.2) from hq)).2

theorem matchWithLits_balance {lits : List String} {s : List Char}
    {g : List Char × List Char × List Char × List Char × List Char}
    (h : matchWithLits lits s = some g) : NumShape g.2.2.2.2 := by
  unfold matchWithLits at h
  cases h1 : matchDateL s with
  | none => simp only [h1] at h; cases h
  | some dp =>
    simp only [h1] at h
    cases h2 : wsPlus dp.2 with
    | none => simp only [h2] at h; cases h
    | some r2 =>
      simp only [h2] at h
      cases h3 : takeWhile1 isIdC r2 with
      | none => simp only [h3] at h; cases h
      | some ip =>
        simp only [h3] at h
        cases h4 : wsPlus ip.2 with
        | none => simp only [h4] at h; cases h
        | some r4 =>
          simp only [h4] at h
          obtain ⟨lit, _, he⟩ := firstSome_mem h
          cases h5 : litP lit r4 with
          | none => simp only [h5] at he; cases he
          | some r5 =>
            simp only [h5] at he
            cases h6 : matchAmtBalEnd r5 with
            | none => simp only [h6] at he; cases he
            | some ab =>
              simp only [h6, Option.some.injEq] at he
              subst he
              exact (matchAmtBalEnd_sound h6).2

theorem matchBalanceTransfer_balance {s : List Char} {b : List Char}
    (h : matchBalanceTransfer s = some b) : NumShape b := by
  unfold matchBalanceTransfer at h
  cases h1 : litP "Saldo z przeniesienia" s with
  | none => simp only [h1] at h; cases h
  | some r1 =>
    simp only [h1] at h
    cases h2 : wsPlus r1 with
    | none => simp only [h2] at h; cases h
    | some r2 =>
      simp only [h2] at h
      obtain ⟨bp, hbp, he⟩ := firstSome_mem h
      split at he
      · injection he with he
        subst he
        exact (numCands_sound hbp).1
      · cases he

/-! ## Lemmas: nonnegative values from minus-free strings -/

theorem pyStrip_subset {l : List Char} : ∀ c ∈ pyStrip l, c ∈ l := by
  intro c hc
  unfold pyStrip at hc
  rw [List.mem_reverse] at hc
  have h1 := (List.dropWhile_sublist isWsC).mem hc
  rw [List.mem_reverse] at h1
  exact (List.dropWhile_sublist isWsC).mem h1

theorem qVal_nonneg (ip fp : List Char) (ex : Bool × Nat) : 0 ≤ qVal ip fp ex := by
  unfold qVal
  split <;>
    · rw [Rat.mkRat_eq_div]
      positivity

theorem parseUnsigned_nonneg {l : List Char} {q : ℚ} (h : parseUnsigned l = some q) : 0 ≤ q := by
  simp only [parseUnsigned] at h
  split at h
  · split at h
    · split at h
      · cases h
      · obtain ⟨ex, _, hq⟩ := Option.map_eq_some'.mp h
        rw [← hq]
        exact qVal_nonneg ..
    · split at h
      · cases h
      · obtain ⟨ex, _, hq⟩ := Option.map_eq_some'.mp h
        rw [← hq]
        exact qVal_nonneg ..
  · split at h
    · cases h
    · injection h with h
      subst h
      exact qVal_nonneg ..

theorem parsePyFloat_nonneg {l : List Char} {q : ℚ} (hm : '-' ∉ l)
    (h : parsePyFloat l = some q) : 0 ≤ q := by
  unfold parsePyFloat at h
  cases hs : pyStrip l with
  | nil => simp only [hs] at h; cases h
  | cons c r =>
    simp only [hs] at h
    split at h
    · next hc =>
      subst hc
      exact absurd (pyStrip_subset '-' (by rw [hs]; exact List.mem_cons_self ..)) hm
    · split at h
      · exact parseUnsigned_nonneg h
      · exact parseUnsigned_nonneg h

theorem clean_amount_nonneg {s : String} (h : '-' ∉ s.data) : 0 ≤ clean_amount s := by
  unfold clean_amount
  split
  · exact le_refl 0
  · have hcl : '-' ∉ pyCleanAmount s := by
      intro hc
      unfold pyCleanAmount at hc
      obtain ⟨x, hx, he⟩ := List.mem_map.mp hc
      by_cases hx' : x = ','
      · rw [if_pos hx'] at he
        cases he
      · rw [if_neg hx'] at he
        subst he
        exact h (List.mem_of_mem_filter hx)
    cases hp : parsePyFloat (pyCleanAmount s) with
    | none => exact le_refl 0
    | some q => exact parsePyFloat_nonneg hcl hp

/-! ## Lemmas: every record's balance comes from a number-shaped capture -/

theorem parseStripped_balance {l : List Char} {t : Transaction}
    (h : parseStripped l = some t) :
    ∃ b, NumShape b ∧ t.balance = clean_amount (String.mk b) := by
  unfold parseStripped at h
  split at h
  · cases h
  · cases h1 : matchMain l with
    | some g =>
      simp only [h1, Option.some.injEq] at h
      subst h
      exact ⟨g.2.2.2.2, matchMain_balance h1, rfl⟩
    | none =>
      simp only [h1] at h
      cases h2 : matchWithLits cardLits l with
      | some g =>
        simp only [h2, Option.some.injEq] at h
        subst h
        exact ⟨g.2.2.2.2, matchWithLits_balance h2, rfl⟩
      | none =>
        simp only [h2] at h
        cases h3 : matchWithLits transferLits l with
        | some g =>
          simp only [h3, Option.some.injEq] at h
          subst h
          exact ⟨g.2.2.2.2, matchWithLits_balance h3, rfl⟩
        | none =>
          simp only [h3] at h
          cases h4 : matchWithLits currencyLits l with
          | some g =>
            simp only [h4, Option.some.injEq] at h
            subst h
            exact ⟨g.2.2.2.2, matchWithLits_balance h4, rfl⟩
          | none =>
            simp only [h4] at h
            cases h5 : matchBalanceTransfer l with
            | some b =>
              simp only [h5, Option.some.injEq] at h
              subst h
              exact ⟨b, matchBalanceTransfer_balance h5, rfl⟩
            | none => simp only [h5] at h; cases h

/-! ## Lemmas: substring search and the classifier -/

theorem leadsWith_append {n h e : List Char} (hl : leadsWith n h = true) :
    leadsWith n (h ++ e) = true := by
  induction n generalizing h with
  | nil => rfl
  | cons a as ih =>
    cases h with
    | nil => cases hl
    | cons b bs =>
      rw [leadsWith, Bool.and_eq_true] at hl
      rw [List.cons_append, leadsWith, Bool.and_eq_true]
      exact ⟨hl.1, ih hl.2⟩

theorem listContains_nil_needle : ∀ (h : List Char), listContains h [] = true := by
  intro h
  cases h with
  | nil => rfl
  | cons a t => rw [listContains]; simp [leadsWith]

theorem listContains_extend {h h' n : List Char} (hp : h <+: h')
    (hc : listContains h n = true) : listContains h' n = true := by
  obtain ⟨e, rfl⟩ := hp
  induction h with
  | nil =>
    rw [listContains] at hc
    cases n with
    | nil => exact listContains_nil_needle e
    | cons a as => cases hc
  | cons b bs ih =>
    rw [listContains, Bool.or_eq_true] at hc
    rw [List.cons_append, listContains, Bool.or_eq_true]
    rcases hc with hc | hc
    · exact Or.inl (leadsWith_append hc)
    · exact Or.inr (ih hc)

theorem listContains_mono {h h' n : List Char} (hp : h <+: h')
    (hc : listContains h' n = false) : listContains h n = false := by
  cases hx : listContains h n
  · rfl
  · rw [listContains_extend hp hx] at hc
    cases hc

theorem categorizeLower_other {dl : List Char}
    (h1 : listContains dl "zakup przy użyciu karty".data = false)
    (h2 : listContains dl "płatność web".data = false)
    (h3 : listContains dl "zwrot blik".data = false)
    (h4 : listContains dl "przelew wychodzący".data = false)
    (h5 : listContains dl "przelew przychodzący".data = false)
    (h6 : listContains dl "wymiana w kantorze".data = false) :
    categorizeLower dl = "Other" := by
  simp [categorizeLower, h1, h2, h3, h4, h5, h6]

theorem categorize_mem (s : String) :
    categorize_transaction s ∈ (["Card Purchase", "Web Payment", "BLIK Refund",
      "Outgoing Transfer", "Incoming Transfer", "Currency Exchange", "Other"] : List String) := by
  unfold categorize_transaction categorizeLower
  split
  · simp
  · split
    · simp
    · split
      · simp
      · split
        · simp
        · split
          · simp
          · split <;> simp

theorem categorize_congr {s t : String} (h : s.data.map pyLower = t.data.map pyLower) :
    categorize_transaction s = categorize_transaction t := by
  unfold categorize_transaction
  rw [h]

/-! ## Lemmas: the detail-association window -/

theorem rangeMap_getD {α : Type} (dflt : α) :
    ∀ (n a : Nat) (l : List α), a + n ≤ l.length →
      (List.range' a n).map (fun j => l.getD j dflt) = (l.drop a).take n := by
  intro n
  induction n with
  | zero => intro a l _; simp
  | succ k ih =>
    intro a l h
    have ha : a < l.length := by omega
    rw [List.range'_succ, List.map_cons, List.drop_eq_getElem_cons ha]
    rw [List.take_succ_cons]
    congr 1
    · rw [List.getD_eq_getElem?_getD, List.getElem?_eq_getElem ha]
      rfl
    · exact ih (a + 1) l (by omega)

theorem extract_eq_window (lines : List String) (ti : Nat) :
    extract_additional_details lines ti = detailsOfWindow ((lines.drop (ti + 1)).take 4) := by
  unfold extract_additional_details detailsOfWindow
  by_cases hlen : ti + 1 < lines.length
  · have hmap := rangeMap_getD "" (min (ti + 5) lines.length - (ti + 1)) (ti + 1) lines (by omega)
    rw [hmap]
    congr 1
    by_cases h5 : ti + 5 ≤ lines.length
    · have : min (ti + 5) lines.length - (ti + 1) = 4 := by omega
      rw [this]
    · have he : min (ti + 5) lines.length - (ti + 1) = lines.length - (ti + 1) := by omega
      rw [he]
      have hd : (lines.drop (ti + 1)).length = lines.length - (ti + 1) := by
        simp [List.length_drop]
      rw [List.take_of_length_le (by omega), List.take_of_length_le (by omega)]
  · have h0 : min (ti + 5) lines.length - (ti + 1) = 0 := by omega
    have hd : lines.drop (ti + 1) = [] := List.drop_eq_nil_of_le (by omega)
    rw [h0, hd]
    simp

theorem detailStepL_no {d : List (String × Value)} {l : List Char}
    (h : matchesNoDetailL l = true) : detailStepL d l = d := by
  simp only [matchesNoDetailL, Bool.and_eq_true, Option.isNone_iff_eq_none] at h
  obtain ⟨⟨⟨⟨h1, h2⟩, h3⟩, h4⟩, h5⟩ := h
  unfold detailStepL
  rw [h1, h2, h3, h4, h5]

theorem detailStep_no {d : List (String × Value)} {w : String}
    (h : matchesNoDetail w = true) : detailStep d w = d :=
  detailStepL_no h

theorem foldl_detailStep_no {ws : List String} (h : ∀ w ∈ ws, matchesNoDetail w = true) :
    ∀ d, ws.foldl detailStep d = d := by
  induction ws with
  | nil => intro d; rfl
  | cons w t ih =>
    intro d
    rw [List.foldl_cons, detailStep_no (h w (List.mem_cons_self w t))]
    exact ih (fun x hx => h x (List.mem_cons_of_mem w hx)) d

/-! ## Lemmas: dict insertion and the record merge -/

theorem dinsert_mem :
    ∀ {d : List (String × Value)} {k : String} {v : Value} {kv : String × Value},
      kv ∈ dinsert d k v → kv.1 = k ∨ kv ∈ d := by
  intro d
  induction d with
  | nil =>
    intro k v kv h
    simp only [dinsert, List.mem_singleton] at h
    subst h
    exact Or.inl rfl
  | cons x t ih =>
    intro k v kv h
    rw [dinsert] at h
    split at h
    · rcases List.mem_cons.mp h with rfl | h
      · exact Or.inl rfl
      · exact Or.inr (List.mem_cons_of_mem x h)
    · rcases List.mem_cons.mp h with rfl | h
      · exact Or.inr (List.mem_cons_self ..)
      · rcases ih h with h' | h'
        · exact Or.inl h'
        · exact Or.inr (List.mem_cons_of_mem x h')

theorem detailStepL_keys {d : List (String × Value)} {l : List Char}
    {kv : String × Value} (h : kv ∈ detailStepL d l) :
    kv.1 ∈ detailKeysAll ∨ kv ∈ d := by
  unfold detailStepL at h
  split at h
  · rcases dinsert_mem h with h' | h'
    · exact Or.inl (by rw [h']; simp [detailKeysAll])
    · rcases dinsert_mem h' with h'' | h''
      · exact Or.inl (by rw [h'']; simp [detailKeysAll])
      · exact Or.inr h''
  · split at h
    · rcases dinsert_mem h with h' | h'
      · exact Or.inl (by rw [h']; simp [detailKeysAll])
      · rcases dinsert_mem h' with h'' | h''
        · exact Or.inl (by rw [h'']; simp [detailKeysAll])
        · rcases dinsert_mem h'' with h3 | h3
          · exact Or.inl (by rw [h3]; simp [detailKeysAll])
          · exact Or.inr h3
    · split at h
      · rcases dinsert_mem h with h' | h'
        · exact Or.inl (by rw [h']; simp [detailKeysAll])
        · exact Or.inr h'
      · split at h
        · rcases dinsert_mem h with h' | h'
          · exact Or.inl (by rw [h']; simp [detailKeysAll])
          · rcases dinsert_mem h' with h'' | h''
            · exact Or.inl (by rw [h'']; simp [detailKeysAll])
            · rcases dinsert_mem h'' with h3 | h3
              · exact Or.inl (by rw [h3]; simp [detailKeysAll])
              · rcases dinsert_mem h3 with h4 | h4
                · exact Or.inl (by rw [h4]; simp [detailKeysAll])
                · rcases dinsert_mem h4 with h5 | h5
                  · exact Or.inl (by rw [h5]; simp [detailKeysAll])
                  · exact Or.inr h5
        · split at h
          · rcases dinsert_mem h with h' | h'
            · exact Or.inl (by rw [h']; simp [detailKeysAll])
            · rcases dinsert_mem h' with h'' | h''
              · exact Or.inl (by rw [h'']; simp [detailKeysAll])
              · rcases dinsert_mem h'' with h3 | h3
                · exact Or.inl (by rw [h3]; simp [detailKeysAll])
                · exact Or.inr h3
          · exact Or.inr h

theorem foldl_detailStep_keys :
    ∀ {ws : List String} {d : List (String × Value)},
      (∀ kv ∈ d, kv.1 ∈ detailKeysAll) →
      ∀ kv ∈ ws.foldl detailStep d, kv.1 ∈ detailKeysAll := by
  intro ws
  induction ws with
  | nil => intro d hd kv h; exact hd kv h
  | cons w t ih =>
    intro d hd kv h
    rw [List.foldl_cons] at h
    refine ih ?_ kv h
    intro x hx
    rcases detailStepL_keys hx with h' | h'
    · exact h'
    · exact hd x h'

theorem extract_keys {lines : List String} {ti : Nat} :
    ∀ kv ∈ extract_additional_details lines ti, kv.1 ∈ detailKeysAll := by
  unfold extract_additional_details
  exact foldl_detailStep_keys (by intro kv h; cases h)

theorem setKey_core {t : Transaction} {k : String} {v : Value} (h : k ∈ detailKeysAll) :
    (setKey t k v).date = t.date ∧ (setKey t k v).transaction_id = t.transaction_id ∧
    (setKey t k v).type = t.type ∧ (setKey t k v).description = t.description ∧
    (setKey t k v).amount = t.amount ∧ (setKey t k v).balance = t.balance ∧
    (setKey t k v).raw_line = t.raw_line ∧ (setKey t k v).pattern_used = t.pattern_used ∧
    (setKey t k v).source_file = t.source_file ∧ (setKey t k v).page = t.page ∧
    (setKey t k v).extra = t.extra := by
  simp only [detailKeysAll, List.mem_cons, List.not_mem_nil, or_false] at h
  rcases h with rfl | rfl | rfl | rfl | rfl | rfl | rfl | rfl | rfl | rfl | rfl | rfl | rfl <;>
    simp [setKey]

theorem applyDetails_core :
    ∀ {d : List (String × Value)} {t : Transaction}, (∀ kv ∈ d, kv.1 ∈ detailKeysAll) →
      (applyDetails t d).date = t.date ∧ (applyDetails t d).transaction_id = t.transaction_id ∧
      (applyDetails t d).type = t.type ∧ (applyDetails t d).description = t.description ∧
      (applyDetails t d).amount = t.amount ∧ (applyDetails t d).balance = t.balance ∧
      (applyDetails t d).raw_line = t.raw_line ∧
      (applyDetails t d).pattern_used = t.pattern_used ∧
      (applyDetails t d).source_file = t.source_file ∧ (applyDetails t d).page = t.page ∧
      (applyDetails t d).extra = t.extra := by
  intro d
  induction d with
  | nil =>
    intro t _
    refine ⟨rfl, rfl, rfl, rfl, rfl, rfl, rfl, rfl, rfl, rfl, rfl⟩
  | cons kv rest ih =>
    intro t hd
    have hk : kv.1 ∈ detailKeysAll := hd kv (List.mem_cons_self ..)
    have hrest : ∀ x ∈ rest, x.1 ∈ detailKeysAll :=
      fun x hx => hd x (List.mem_cons_of_mem kv hx)
    have happ : applyDetails t (kv :: rest) = applyDetails (setKey t kv.1 kv.2) rest := rfl
    obtain ⟨e1, e2, e3, e4, e5, e6, e7, e8, e9, e10, e11⟩ := ih (t := setKey t kv.1 kv.2) hrest
    obtain ⟨s1, s2, s3, s4, s5, s6, s7, s8, s9, s10, s11⟩ := setKey_core (t := t) (v := kv.2) hk
    rw [happ]
    exact ⟨e1.trans s1, e2.trans s2, e3.trans s3, e4.trans s4, e5.trans s5, e6.trans s6,
      e7.trans s7, e8.trans s8, e9.trans s9, e10.trans s10, e11.trans s11⟩

/-! ## Lemmas: the generic rule matches every well-formed five-field line -/

theorem amtWF_shape {s : String} (h : amtWF s = true) : AmtShape s.data := by
  unfold amtWF at h
  rw [List.any_eq_true] at h
  obtain ⟨p, hp, he⟩ := h
  obtain ⟨hsh, hse⟩ := amtCands_sound hp
  rw [List.isEmpty_iff] at he
  rw [he, List.append_nil] at hse
  rw [hse]
  exact hsh

theorem balWF_shape {s : String} (h : balWF s = true) : NumShape s.data := by
  unfold balWF at h
  rw [List.any_eq_true] at h
  obtain ⟨p, hp, he⟩ := h
  obtain ⟨hsh, hse⟩ := numCands_sound hp
  rw [List.isEmpty_iff] at he
  rw [he, List.append_nil] at hse
  rw [hse]
  exact hsh

theorem descWF_shape {s : String} (h : descWF s = true) :
    ∃ c t, s.data = c :: t ∧ isWsC c = false ∧ ∀ x ∈ s.data, ¬ x = '\n' := by
  unfold descWF at h
  split at h
  · cases h
  · next c cs heq =>
    rw [Bool.and_eq_true] at h
    refine ⟨c, cs, heq, by simpa using h.1, ?_⟩
    intro x hx
    rw [heq] at hx
    have := List.all_eq_true.mp h.2 x hx
    simpa using this

theorem idWF_shape {s : String} (h : idWF s = true) :
    ∃ c t, s.data = c :: t ∧ ∀ x ∈ s.data, isIdC x = true := by
  unfold idWF at h
  rw [Bool.and_eq_true] at h
  obtain ⟨h1, h2⟩ := h
  have h2' := List.all_eq_true.mp h2
  cases hd : s.data with
  | nil => rw [hd] at h1; simp at h1
  | cons c t =>
    rw [hd] at h2'
    exact ⟨c, t, rfl, h2'⟩

theorem dateWF_head {s : String} (h : dateWF s = true) :
    ∃ c t, s.data = c :: t ∧ isDigitC c = true := by
  unfold dateWF at h
  split at h
  · next heq =>
    simp only [Bool.and_eq_true, decide_eq_true_eq] at h
    exact ⟨_, _, heq, h.1.1.1.1.1.1.1.1.1⟩
  · cases h

theorem matchDateL_complete {s : String} (hd : dateWF s = true) (r : List Char) :
    matchDateL (s.data ++ r) = some (s.data, r) := by
  unfold dateWF at hd
  split at hd
  · next a b c d e f g h i j heq =>
    simp only [Bool.and_eq_true, decide_eq_true_eq] at hd
    obtain ⟨⟨⟨⟨⟨⟨⟨⟨⟨ha, hb⟩, hc⟩, hd'⟩, he⟩, hf⟩, hg⟩, hh⟩, hi⟩, hj⟩ := hd
    subst hc
    subst hf
    rw [heq]
    simp [matchDateL, takeExact, ha, hb, hd', he, hg, hh, hi, hj]
  · cases hd

theorem pyStrip_eq_self {l : List Char} (hh : ∀ c, l.head? = some c → isWsC c = false)
    (hl : ∀ c, l.getLast? = some c → isWsC c = false) : pyStrip l = l := by
  unfold pyStrip
  have e1 : l.dropWhile isWsC = l := by
    cases l with
    | nil => rfl
    | cons c t => rw [List.dropWhile_cons, if_neg (by simp [hh c rfl])]
  rw [e1]
  have e2 : l.reverse.dropWhile isWsC = l.reverse := by
    cases hr : l.reverse with
    | nil => rfl
    | cons c t =>
      have hc : l.getLast? = some c := by rw [← List.head?_reverse, hr]; rfl
      rw [List.dropWhile_cons, if_neg (by simp [hl c hc])]
  rw [e2, List.reverse_reverse]

theorem matchMain_composed {ds idS desc amt bal : String}
    (h1 : dateWF ds = true) (h2 : idWF idS = true) (h3 : descWF desc = true)
    (h4 : amtWF amt = true) (h5 : balWF bal = true) :
    ∃ m ab, m <+: desc.data ∧
      matchMain (ds.data ++
          ' ' :: (idS.data ++ ' ' :: (desc.data ++ ' ' :: (amt.data ++ ' ' :: bal.data)))) =
        some (ds.data, idS.data, m, ab) := by
  obtain ⟨ic, it, hid, hidall⟩ := idWF_shape h2
  obtain ⟨dc, dt, hdesc, hdw, hdnl⟩ := descWF_shape h3
  have hamt : AmtShape amt.data := amtWF_shape h4
  have hbal : NumShape bal.data := balWF_shape h5
  have hdate := matchDateL_complete h1
    (' ' :: (idS.data ++ ' ' :: (desc.data ++ ' ' :: (amt.data ++ ' ' :: bal.data))))
  have hws1 : wsPlus
      (' ' :: (idS.data ++ ' ' :: (desc.data ++ ' ' :: (amt.data ++ ' ' :: bal.data)))) =
      some (idS.data ++ ' ' :: (desc.data ++ ' ' :: (amt.data ++ ' ' :: bal.data))) := by
    apply wsPlus_cons (by decide)
    intro x hx
    rw [hid, List.cons_append] at hx
    injection hx with hx
    rw [← hx]
    exact idC_not_ws (hidall ic (by rw [hid]; exact List.mem_cons_self ..))
  have hidm : takeWhile1 isIdC
      (idS.data ++ ' ' :: (desc.data ++ ' ' :: (amt.data ++ ' ' :: bal.data))) =
      some (idS.data, ' ' :: (desc.data ++ ' ' :: (amt.data ++ ' ' :: bal.data))) := by
    rw [hid]
    have := takeWhile1_complete (p := isIdC) (c := ic) (t := it)
      (r := ' ' :: (desc.data ++ ' ' :: (amt.data ++ ' ' :: bal.data)))
      (by rw [← hid]; exact hidall)
      (by intro x hx; injection hx with hx; rw [← hx]; decide)
    simpa using this
  obtain ⟨q0, hq0⟩ := matchAmtBalEnd_complete hamt hbal
  obtain ⟨m, b', hlc, hpre⟩ :=
    lazyCapture_of_split (p := desc.data) (' ' :: (amt.data ++ ' ' :: bal.data))
      (by rw [hdesc]; simp) hdnl hq0
  have hwl : wsLazy 1 matchAmtBalEnd
      (' ' :: (desc.data ++ ' ' :: (amt.data ++ ' ' :: bal.data))) = some (m, b') := by
    rw [hdesc, List.cons_append, wsLazy_one_space hdw, ← List.cons_append, ← hdesc]
    exact hlc
  refine ⟨m, (b'.1, b'.2), hpre, ?_⟩
  unfold matchMain
  simp only [hdate, hws1, hidm, hwl]

/-! ## Claim theorems -/

/-- Claim C1 (behaviour of the code at the claim's input).  The claim says the
transfer rule wins over the generic rule on this line; the code iterates
`patterns` in dict insertion order with `main_transaction` first, so the
generic rule captures the line, `pattern_used` is `"main_transaction"` (not
the transfer rule), while category, amount and balance are as the claim
states. -/
theorem claim1_code_behavior :
    parse_transaction_line "01.02.2024 ABC123 PRZELEW WYCHODZĄCY -100,00 900,00" =
      some { date := some "01.02.2024", transaction_id := "ABC123",
             type := "Outgoing Transfer", description := "PRZELEW WYCHODZĄCY",
             amount := -100, balance := 900,
             raw_line := "01.02.2024 ABC123 PRZELEW WYCHODZĄCY -100,00 900,00",
             pattern_used := "main_transaction" } ∧
    ("main_transaction" : String) ≠ "transfer_transaction" :=
  ⟨by decide, by decide⟩

/-- Claim C2, counterexample.  The second input line is itself matched by a
catalog rule, yet the detail on the third line (index 2, at/after the next
transaction line at index 1) is still attached to the transaction at index 0:
removing line 2 removes the detail, so the detail originates from index 2. -/
theorem claim2_counterexample :
    (parse_transaction_line "02.02.2024 DEF456 WPLATA -50,00 850,00").isSome = true ∧
    dlookup "original_amount"
      (extract_additional_details
        ["01.02.2024 ABC123 X -100,00 900,00", "02.02.2024 DEF456 WPLATA -50,00 850,00"] 0) =
      none ∧
    dlookup "original_amount"
      (extract_additional_details
        ["01.02.2024 ABC123 X -100,00 900,00", "02.02.2024 DEF456 WPLATA -50,00 850,00",
         "Kwota oryg.: 10,00 PLN"] 0) = some (.q 10) :=
  ⟨by decide, by decide, by decide⟩

/-- Claim C2 as amended: detail fields attached to the transaction at index
`ti` originate only from lines strictly after `ti` and at most `ti + 4`
(clipped to the page); the scan does not stop at an intervening
catalog-matching line.  Stated as: the result ignores lines from `ti + 5` on,
and ignores the content of lines up to and including `ti`. -/
theorem claim2_theorem :
    (∀ (lines : List String) (ti : Nat),
      extract_additional_details lines ti =
        extract_additional_details (lines.take (ti + 5)) ti) ∧
    (∀ (pre pre' rest : List String) (ti : Nat), pre.length = ti + 1 → pre'.length = ti + 1 →
      extract_additional_details (pre ++ rest) ti =
        extract_additional_details (pre' ++ rest) ti) := by
  constructor
  · intro lines ti
    rw [extract_eq_window, extract_eq_window, List.drop_take]
    have h4 : ti + 5 - (ti + 1) = 4 := by omega
    rw [h4, List.take_take]
    norm_num
  · intro pre pre' rest ti hl hl'
    rw [extract_eq_window, extract_eq_window, List.drop_left' hl, List.drop_left' hl']

/-- Claim C2 witness: the amended theorem at a concrete input. -/
theorem claim2_witness :
    (["a"] : List String).length = 0 + 1 ∧ (["b"] : List String).length = 0 + 1 ∧
    extract_additional_details (["a"] ++ ["Kwota oryg.: 10,00 PLN"]) 0 =
      extract_additional_details (["b"] ++ ["Kwota oryg.: 10,00 PLN"]) 0 :=
  ⟨rfl, rfl, claim2_theorem.2 ["a"] ["b"] ["Kwota oryg.: 10,00 PLN"] 0 rfl rfl⟩

/-- Claim C3, counterexample.  The card and web-payment detail patterns both
own the key `"location"`, and on a window containing a card-detail line then a
web-detail line the two distinct patterns populate that same key for the one
transaction (the second write overwrites the first). -/
theorem claim3_counterexample :
    "location" ∈ detail_keys DetailPat.card ∧ "location" ∈ detail_keys DetailPat.web ∧
    DetailPat.card ≠ DetailPat.web ∧
    dlookup "location"
      (extract_additional_details
        ["01.02.2024 ABC123 ZAKUP PRZY UŻYCIU KARTY -50,00 950,00",
         "02.02.2024 Karta:123456****7890 Lokalizacja: SHOP A Nr ref: 111"] 0) =
      some (.s "SHOP A") ∧
    dlookup "location"
      (extract_additional_details
        ["01.02.2024 ABC123 ZAKUP PRZY UŻYCIU KARTY -50,00 950,00",
         "02.02.2024 Karta:123456****7890 Lokalizacja: SHOP A Nr ref: 111",
         "03.02.2024 Tel:480000000 Godz.12:00:00 Lokalizacja: WEB B Nr ref: 222"] 0) =
      some (.s "WEB B") :=
  ⟨by decide, by decide, by decide, by decide, by decide⟩

/-- Claim C3 as amended: the key sets of two distinct detail patterns are
disjoint, except that the card and web-payment patterns share exactly the key
`"location"`. -/
theorem claim3_theorem :
    ∀ p q : DetailPat, p ≠ q →
      ((detail_keys p).inter (detail_keys q) = [] ∨
        ((detail_keys p).inter (detail_keys q) = ["location"] ∧
          ((p = DetailPat.card ∧ q = DetailPat.web) ∨
            (p = DetailPat.web ∧ q = DetailPat.card)))) := by
  intro p q hpq
  cases p <;> cases q <;> first
    | exact absurd rfl hpq
    | decide

/-- Claim C3 witness: the amended theorem at the card/web pair. -/
theorem claim3_witness :
    DetailPat.card ≠ DetailPat.web ∧
    ((detail_keys DetailPat.card).inter (detail_keys DetailPat.web) = [] ∨
      ((detail_keys DetailPat.card).inter (detail_keys DetailPat.web) = ["location"] ∧
        ((DetailPat.card = DetailPat.card ∧ DetailPat.web = DetailPat.web) ∨
          (DetailPat.card = DetailPat.web ∧ DetailPat.web = DetailPat.card)))) :=
  ⟨by decide, claim3_theorem DetailPat.card DetailPat.web (by decide)⟩

/-- Claim C4: `clean_amount` parses the two locale examples exactly and
substitutes zero, without any fault, for every input whose cleaned form fails
to parse as a number. -/
theorem claim4_theorem :
    clean_amount "1 234,56" = 1234.56 ∧ clean_amount "-12,00" = -12 ∧
    ∀ s : String, parsePyFloat (pyCleanAmount s) = none → clean_amount s = 0 := by
  refine ⟨?_, by decide, ?_⟩
  · rw [show (1234.56 : ℚ) = mkRat 123456 100 by norm_num [Rat.mkRat_eq_div]]
    decide
  · intro s h
    unfold clean_amount
    split
    · rfl
    · simp [h]

/-- Claim C4 witness: the zero-substitution branch at the input "garbage". -/
theorem claim4_witness :
    parsePyFloat (pyCleanAmount "garbage") = none ∧ clean_amount "garbage" = 0 :=
  ⟨by decide, claim4_theorem.2.2 "garbage" (by decide)⟩

/-- Claim C5: the detail scan reads exactly the lines at offsets +1 through +4
(clipped to the page): the result is a function of that window alone; lines at
offset +5 and beyond never contribute; and when the first three window lines
match no detail pattern, the result is exactly the contribution of the line at
offset +4. -/
theorem claim5_theorem :
    (∀ (lines : List String) (ti : Nat),
      extract_additional_details lines ti = detailsOfWindow ((lines.drop (ti + 1)).take 4)) ∧
    (∀ (lines app : List String) (ti : Nat), lines.length = ti + 5 →
      extract_additional_details (lines ++ app) ti = extract_additional_details lines ti) ∧
    (∀ (lines : List String) (ti : Nat), ti + 5 ≤ lines.length →
      (∀ w ∈ (lines.drop (ti + 1)).take 3, matchesNoDetail w = true) →
      extract_additional_details lines ti = detailStep [] (lines.getD (ti + 4) "")) := by
  refine ⟨extract_eq_window, ?_, ?_⟩
  · intro lines app ti hlen
    rw [extract_eq_window, extract_eq_window]
    rw [List.drop_append_of_le_length (by omega)]
    rw [List.take_append_of_le_length (by simp [List.length_drop]; omega)]
  · intro lines ti hlen hno
    rw [extract_eq_window]
    have h34 : (4 : Nat) = 3 + 1 := rfl
    rw [h34, List.take_succ]
    have hget : (lines.drop (ti + 1))[3]? = some (lines.getD (ti + 4) "") := by
      rw [List.getElem?_drop]
      have hlt : ti + 1 + 3 < lines.length := by omega
      rw [List.getElem?_eq_getElem hlt]
      rw [List.getD_eq_getElem?_getD, List.getElem?_eq_getElem (by omega : ti + 4 < lines.length)]
      rfl
    rw [hget]
    unfold detailsOfWindow
    rw [List.foldl_append]
    rw [foldl_detailStep_no hno]
    rfl

/-- Claim C5 witness: a page where offsets +1..+3 match nothing, offset +4 is
an original-amount detail line and offset +5 is another detail line; the
result is exactly the +4 contribution. -/
theorem claim5_witness :
    (0 : Nat) + 5 ≤
      (["t", "", "", "", "Kwota oryg.: 10,00 PLN", "Kwota oryg.: 99,00 PLN"] : List String).length ∧
    (∀ w ∈ ((["t", "", "", "", "Kwota oryg.: 10,00 PLN",
        "Kwota oryg.: 99,00 PLN"] : List String).drop (0 + 1)).take 3,
      matchesNoDetail w = true) ∧
    extract_additional_details
        ["t", "", "", "", "Kwota oryg.: 10,00 PLN", "Kwota oryg.: 99,00 PLN"] 0 =
      detailStep []
        ((["t", "", "", "", "Kwota oryg.: 10,00 PLN",
          "Kwota oryg.: 99,00 PLN"] : List String).getD (0 + 4) "") :=
  ⟨by decide, by decide,
    claim5_theorem.2.2 ["t", "", "", "", "Kwota oryg.: 10,00 PLN", "Kwota oryg.: 99,00 PLN"] 0
      (by decide) (by decide)⟩

/-- Claim C6: the carryover line produces exactly one record with zero amount,
balance 5000, no date, and the `BALANCE_TRANSFER` sentinel id. -/
theorem claim6_theorem :
    parse_transaction_line "Saldo z przeniesienia 5 000,00" =
      some { date := none, transaction_id := "BALANCE_TRANSFER",
             type := "Saldo z przeniesienia",
             description := "Balance transfer from previous period",
             amount := 0, balance := 5000,
             raw_line := "Saldo z przeniesienia 5 000,00",
             pattern_used := "balance_transfer" } := by
  decide

/-- Claim C7: the classifier returns one of the seven fixed labels, is a pure
function of the lowercased description, and every well-formed five-field line
whose description contains none of the six key phrases matches the generic
`main_transaction` rule and classifies as "Other". -/
theorem claim7_theorem :
    (∀ s : String, categorize_transaction s ∈ (["Card Purchase", "Web Payment", "BLIK Refund",
      "Outgoing Transfer", "Incoming Transfer", "Currency Exchange", "Other"] : List String)) ∧
    (∀ s t : String, s.data.map pyLower = t.data.map pyLower →
      categorize_transaction s = categorize_transaction t) ∧
    (∀ ds idS desc amt bal : String,
      dateWF ds = true → idWF idS = true → descWF desc = true → amtWF amt = true →
      balWF bal = true → phraseFreeB desc = true →
      ∃ t, parse_transaction_line (String.mk (ds.data ++
          ' ' :: (idS.data ++ ' ' :: (desc.data ++ ' ' :: (amt.data ++ ' ' :: bal.data))))) =
        some t ∧ t.pattern_used = "main_transaction" ∧ t.type = "Other") := by
  refine ⟨categorize_mem, fun s t h => categorize_congr h, ?_⟩
  intro ds idS desc amt bal h1 h2 h3 h4 h5 hp
  obtain ⟨m, ab, hpre, hmm⟩ := matchMain_composed h1 h2 h3 h4 h5
  obtain ⟨dc0, dt0, hds, hdd⟩ := dateWF_head h1
  obtain ⟨pre, cl, hbl, hcl⟩ := NumShape_last (balWF_shape h5)
  have hLfm : ds.data ++
      ' ' :: (idS.data ++ ' ' :: (desc.data ++ ' ' :: (amt.data ++ ' ' :: bal.data))) =
      dc0 :: (dt0 ++
        ' ' :: (idS.data ++ ' ' :: (desc.data ++ ' ' :: (amt.data ++ ' ' :: bal.data)))) := by
    rw [hds]
    rfl
  have hL2 : ds.data ++
      ' ' :: (idS.data ++ ' ' :: (desc.data ++ ' ' :: (amt.data ++ ' ' :: bal.data))) =
      (ds.data ++
        ' ' :: (idS.data ++ ' ' :: (desc.data ++ ' ' :: (amt.data ++ ' ' :: pre)))) ++ [cl] := by
    rw [hbl]
    simp [List.append_assoc]
  have hstrip : pyStrip (ds.data ++
      ' ' :: (idS.data ++ ' ' :: (desc.data ++ ' ' :: (amt.data ++ ' ' :: bal.data)))) =
      ds.data ++ ' ' :: (idS.data ++ ' ' :: (desc.data ++ ' ' :: (amt.data ++ ' ' :: bal.data))) := by
    apply pyStrip_eq_self
    · intro c hc
      rw [hLfm] at hc
      injection hc with hc
      rw [← hc]
      exact digit_not_ws hdd
    · intro c hc
      rw [hL2, List.getLast?_concat] at hc
      injection hc with hc
      rw [← hc]
      exact digit_not_ws hcl
  have hne : (ds.data ++
      ' ' :: (idS.data ++ ' ' :: (desc.data ++ ' ' :: (amt.data ++ ' ' :: bal.data)))).isEmpty =
      false := by
    rw [hLfm]
    rfl
  refine ⟨mkPatternRecord "main_transaction"
    (ds.data ++ ' ' :: (idS.data ++ ' ' :: (desc.data ++ ' ' :: (amt.data ++ ' ' :: bal.data))))
    (ds.data, idS.data, m, ab), ?_, rfl, ?_⟩
  · unfold parse_transaction_line
    rw [show (String.mk (ds.data ++
        ' ' :: (idS.data ++ ' ' :: (desc.data ++ ' ' :: (amt.data ++ ' ' :: bal.data))))).data =
      ds.data ++ ' ' :: (idS.data ++ ' ' :: (desc.data ++ ' ' :: (amt.data ++ ' ' :: bal.data)))
      from rfl, hstrip]
    unfold parseStripped
    rw [if_neg (by simp [hne])]
    simp only [hmm]
  · show categorize_transaction (String.mk m) = "Other"
    have hmono : (String.mk m).data.map pyLower <+: desc.data.map pyLower := by
      obtain ⟨e, he⟩ := hpre
      exact ⟨e.map pyLower, by rw [show (String.mk m).data = m from rfl, ← List.map_append, he]⟩
    unfold phraseFreeB at hp
    simp only [Bool.and_eq_true, Bool.not_eq_true'] at hp
    obtain ⟨⟨⟨⟨⟨hp1, hp2⟩, hp3⟩, hp4⟩, hp5⟩, hp6⟩ := hp
    unfold categorize_transaction
    exact categorizeLower_other (listContains_mono hmono hp1) (listContains_mono hmono hp2)
      (listContains_mono hmono hp3) (listContains_mono hmono hp4)
      (listContains_mono hmono hp5) (listContains_mono hmono hp6)

/-- Claim C7 witness: the five-field theorem at a concrete unrecognized
description. -/
theorem claim7_witness :
    dateWF "01.02.2024" = true ∧ idWF "AB7" = true ∧ descWF "FOO BAR" = true ∧
    amtWF "-100,00" = true ∧ balWF "900,00" = true ∧ phraseFreeB "FOO BAR" = true ∧
    ∃ t, parse_transaction_line (String.mk ("01.02.2024".data ++
        ' ' :: ("AB7".data ++ ' ' :: ("FOO BAR".data ++
          ' ' :: ("-100,00".data ++ ' ' :: "900,00".data))))) =
      some t ∧ t.pattern_used = "main_transaction" ∧ t.type = "Other" :=
  ⟨by decide, by decide, by decide, by decide, by decide, by decide,
    claim7_theorem.2.2 "01.02.2024" "AB7" "FOO BAR" "-100,00" "900,00"
      (by decide) (by decide) (by decide) (by decide) (by decide) (by decide)⟩

/-- Claim C8: the page-processing core is a pure function of its inputs, so
two runs over identical input sequences produce identical output sequences. -/
theorem claim8_theorem :
    ∀ (n₁ n₂ : String) (p₁ p₂ : List String), n₁ = n₂ → p₁ = p₂ →
      parse_pdf_pages n₁ p₁ = parse_pdf_pages n₂ p₂ := by
  intro n₁ n₂ p₁ p₂ h1 h2
  rw [h1, h2]

/-- Claim C8 witness: two runs at a concrete input. -/
theorem claim8_witness :
    ("statement.pdf" : String) = "statement.pdf" ∧
    (["01.02.2024 ABC123 X -100,00 900,00"] : List String) =
      ["01.02.2024 ABC123 X -100,00 900,00"] ∧
    parse_pdf_pages "statement.pdf" ["01.02.2024 ABC123 X -100,00 900,00"] =
      parse_pdf_pages "statement.pdf" ["01.02.2024 ABC123 X -100,00 900,00"] :=
  ⟨rfl, rfl, claim8_theorem "statement.pdf" "statement.pdf" _ _ rfl rfl⟩

/-- Claim C9: merging the extracted detail mapping into a record never changes
any core field (nor stores any unrecognized key): the detail key domain is
disjoint from the core fields. -/
theorem claim9_theorem :
    ∀ (t : Transaction) (lines : List String) (i : Nat),
      (applyDetails t (extract_additional_details lines i)).date = t.date ∧
      (applyDetails t (extract_additional_details lines i)).transaction_id = t.transaction_id ∧
      (applyDetails t (extract_additional_details lines i)).type = t.type ∧
      (applyDetails t (extract_additional_details lines i)).description = t.description ∧
      (applyDetails t (extract_additional_details lines i)).amount = t.amount ∧
      (applyDetails t (extract_additional_details lines i)).balance = t.balance ∧
      (applyDetails t (extract_additional_details lines i)).raw_line = t.raw_line ∧
      (applyDetails t (extract_additional_details lines i)).pattern_used = t.pattern_used ∧
      (applyDetails t (extract_additional_details lines i)).source_file = t.source_file ∧
      (applyDetails t (extract_additional_details lines i)).page = t.page ∧
      (applyDetails t (extract_additional_details lines i)).extra = t.extra := by
  intro t lines i
  exact applyDetails_core (fun kv hk => extract_keys kv hk)

/-- Claim C10: every record emitted by the line parser has a nonnegative
balance — the balance group of every rule admits no minus sign. -/
theorem claim10_theorem :
    ∀ (line : String) (t : Transaction), parse_transaction_line line = some t →
      0 ≤ t.balance := by
  intro line t h
  unfold parse_transaction_line at h
  obtain ⟨b, hb, he⟩ := parseStripped_balance h
  rw [he]
  apply clean_amount_nonneg
  rw [show (String.mk b).data = b from rfl]
  exact NumShape_no_minus hb

/-- Claim C10 witness: the theorem at the carryover line. -/
theorem claim10_witness :
    parse_transaction_line "Saldo z przeniesienia 5 000,00" =
      some { date := none, transaction_id := "BALANCE_TRANSFER",
             type := "Saldo z przeniesienia",
             description := "Balance transfer from previous period",
             amount := 0, balance := 5000,
             raw_line := "Saldo z przeniesienia 5 000,00",
             pattern_used := "balance_transfer" } ∧
    (0 : ℚ) ≤ ({ date := none, transaction_id := "BALANCE_TRANSFER",
                 type := "Saldo z przeniesienia",
                 description := "Balance transfer from previous period",
                 amount := 0, balance := 5000,
                 raw_line := "Saldo z przeniesienia 5 000,00",
                 pattern_used := "balance_transfer" } : Transaction).balance :=
  ⟨by decide, claim10_theorem "Saldo z przeniesienia 5 000,00" _ (by decide)⟩

end IkoTx
